import Mathlib

/-!
# Verification of the InterSubMod per-region pipeline

Shallow embedding of the core components of the InterSubMod C++ program
(modification-tag decoder, matrix builder, distance kernels, agglomerative
clusterer, region processor) together with proofs and refutations of the
specification claims about them.

Conventions:
* C++ `double` values are modelled by exact rationals `ℚ` (and by `ℝ` where
  the source takes square roots); `NaN` sentinels are modelled by `Option`.
* C++ `int` is modelled by `Int` where its value can go negative and by
  `Nat` where the source only ever stores sizes/indices.
* Strings are modelled as `List Char`.
-/

namespace InterSubMod

/-! ## Modification decoder (src/src/core/MethylationParser.cpp)

The decoder reads the MM tag (a semicolon-separated list of
modification-type entries, each a prefix such as `C+m?` followed by
comma-separated delta counts) and the ML tag (a flat byte array of
probabilities). -/

/-- Index of the first occurrence of `pat` in `s` (C++ `std::string::find`). -/
def findSub (pat : List Char) : List Char → Option Nat
  | [] => if pat = [] then some 0 else none
  | c :: rest =>
    if pat.isPrefixOf (c :: rest) then some 0
    else (findSub pat rest).map (· + 1)

/-- The ML-offset computation of `MethylationParser::parse_read`
(MethylationParser.cpp lines 46-65): the number of commas before the first
occurrence of `C+m?` minus the number of semicolons before it. -/
def mlOffsetOf (mm : List Char) : Int :=
  match findSub ("C+m?".toList) mm with
  | none => 0
  | some p => ((mm.take p).count ',' : Int) - ((mm.take p).count ';' : Int)

/-- Models `std::stoi` on a token: an optional sign followed by the longest digit
prefix; `none` when no digit is found (the C++ call throws there). -/
def stoiQ (t : List Char) : Option Int :=
  let signRest : Int × List Char :=
    match t with
    | '-' :: r => (-1, r)
    | '+' :: r => (1, r)
    | r => (1, r)
  let ds := signRest.2.takeWhile (·.isDigit)
  if ds = [] then none
  else some (signRest.1 *
    (ds.foldl (fun a c => a * 10 + ((c.toNat : Int) - ('0'.toNat : Int))) 0))

/-- The token loop of `MethylationParser::parse_mm_tag` (lines 211-234):
tokens split on `,`; a token containing `;` is truncated there, parsed if
nonempty, and ends the scan; an unparsable token ends the scan. -/
def collectDeltas : List (List Char) → List Int
  | [] => []
  | t :: rest =>
    match findSub [';'] t with
    | some sp =>
      let tt := t.take sp
      if tt ≠ [] then
        match stoiQ tt with
        | some v => [v]
        | none => []
      else []
    | none =>
      if t ≠ [] then
        match stoiQ t with
        | some v => v :: collectDeltas rest
        | none => []
      else collectDeltas rest

/-- Embeds `MethylationParser::parse_mm_tag` (lines 184-237). -/
def parseMmTag (mm : List Char) (modCode : List Char) : List Int :=
  match findSub modCode mm with
  | none => []
  | some p =>
    let pos := p + modCode.length
    if pos ≥ mm.length then []
    else if mm.getD pos ' ' ≠ ',' then []
    else collectDeltas ((mm.drop (pos + 1)).splitOn ',')

/-- Modelled from the spec: "the offset for a given type is the total count
of all deltas of preceding types" (spec §4.4).  For a well-formed MM string
each entry holds one comma per delta, so the expected ML offset for `C+m?`
is the total comma count of the entries preceding the `C+m?` entry. -/
def specMlOffset (mm : List Char) : Nat :=
  let entries := mm.splitOn ';'
  ((entries.takeWhile (fun e => findSub ("C+m?".toList) e = none)).map
    (fun e => e.count ',')).sum

/-- CIGAR alignment operations (the BAM op set). -/
inductive CigarOp where
  | M | I | D | N | S | H | Eq | X
  deriving DecidableEq, Repr

/-- The walk inside `MethylationParser::build_seq_to_ref_map` (lines 239-288):
emits, per query base consumed, the 0-based reference coordinate (or `-1`
for insertions and soft clips). -/
def cigarWalk : Int → List (CigarOp × Nat) → List Int
  | _, [] => []
  | refPos, (op, len) :: rest =>
    match op with
    | .M | .Eq | .X =>
        ((List.range len).map (fun j => refPos + (j : Int))) ++
          cigarWalk (refPos + (len : Int)) rest
    | .I | .S => List.replicate len (-1) ++ cigarWalk refPos rest
    | .D | .N => cigarWalk (refPos + (len : Int)) rest
    | .H => cigarWalk refPos rest

/-- Embeds `MethylationParser::build_seq_to_ref_map`: a vector of length `qlen`,
prefilled with `-1`, written while the query offset stays below `qlen`. -/
def buildSeqToRefMap (qlen : Nat) (pos : Int) (cigar : List (CigarOp × Nat)) :
    List Int :=
  let w := cigarWalk pos cigar
  w.take qlen ++ List.replicate (qlen - w.length) (-1)

/-- Embeds `MethylationParser::is_cpg_site` (lines 290-295). -/
def isCpgSite (refSeq : List Char) (offset : Nat) : Bool :=
  if offset + 1 ≥ refSeq.length then false
  else refSeq.getD offset ' ' = 'C' && refSeq.getD (offset + 1) ' ' = 'G'

/-- A decoded methylation call.  The C++ `MethylCall` stores the 1-based
reference position and the probability `byte / 255.0f`; since the byte
determines the probability we carry the ML byte and expose the float via
`MethylCall.probability`. -/
structure MethylCall where
  refPos : Int
  probByte : Nat
  deriving DecidableEq, Repr

/-- The probability stored in the C++ `MethylCall`: `ml_byte / 255.0f`. -/
def MethylCall.probability (c : MethylCall) : ℚ := (c.probByte : ℚ) / 255

/-- The per-base scan of `MethylationParser::parse_read` (lines 114-179),
iterating the stored query sequence left-to-right (`seq_idx` ascending),
zipped with its reference coordinates.  State: `baseCount` counts
target-base occurrences, `deltaIdx` indexes the delta list, `nextTarget` is
the target-base ordinal of the next modified base (`-1` when exhausted). -/
def parseLoop (refSeq : List Char) (refStart : Int) (isReverse : Bool)
    (target : Char) (deltas : List Int) (mlData : List Nat) (mlOffset : Int) :
    List (Char × Int) → Int → Nat → Int → List MethylCall
  | [], _, _, _ => []
  | (base, refPos) :: rest, baseCount, deltaIdx, nextTarget =>
    if base = target then
      if baseCount = nextTarget then
        let emitted : List MethylCall :=
          if refPos ≥ 0 then
            let refOffset := refPos - refStart
            if 0 ≤ refOffset ∧ refOffset < (refSeq.length : Int) then
              let ro := refOffset.toNat
              let validCpg : Bool :=
                if isReverse then
                  refSeq.getD ro ' ' = 'G' && decide (0 < ro) &&
                    refSeq.getD (ro - 1) ' ' = 'C'
                else
                  refSeq.getD ro ' ' = 'C' && isCpgSite refSeq ro
              if validCpg then
                -- ml_data index cast to size_t; non-negative in every use here
                let byte := mlData.getD (mlOffset + (deltaIdx : Int)).toNat 0
                let reportPos := if isReverse then refPos - 1 else refPos
                [⟨reportPos + 1, byte⟩]
              else []
            else []
          else []
        let deltaIdx' := deltaIdx + 1
        let nextTarget' : Int :=
          if deltaIdx' < deltas.length then nextTarget + deltas.getD deltaIdx' 0 + 1
          else -1
        emitted ++ parseLoop refSeq refStart isReverse target deltas mlData mlOffset
          rest (baseCount + 1) deltaIdx' nextTarget'
      else
        parseLoop refSeq refStart isReverse target deltas mlData mlOffset
          rest (baseCount + 1) deltaIdx nextTarget
    else
      parseLoop refSeq refStart isReverse target deltas mlData mlOffset
        rest baseCount deltaIdx nextTarget

/-- Embeds `MethylationParser::parse_read` (lines 15-182), from the MM string, the
ML byte array, the stored query sequence, the alignment start and CIGAR,
the reference substring and its start, and the reverse flag.  (The dead
re-parse of `G-m?` at lines 107-112 is unreachable — `deltas` is already
known nonempty there — and is omitted.) -/
def parseRead (mm : List Char) (mlData : List Nat) (seq : List Char)
    (pos : Int) (cigar : List (CigarOp × Nat)) (refSeq : List Char)
    (refStartPos : Int) (isReverse : Bool) : List MethylCall :=
  let cm := "C+m?".toList
  let mlOffset := mlOffsetOf mm
  let deltas := match findSub cm mm with
    | some _ => parseMmTag mm cm
    | none => []
  if deltas = [] then []
  else if mlOffset + (deltas.length : Int) < 0 ∨
      (mlOffset + (deltas.length : Int)).toNat > mlData.length then []
  else
    let seqToRef := buildSeqToRefMap seq.length pos cigar
    let target := if isReverse then 'G' else 'C'
    let nextTarget : Int := if deltas = [] then -1 else deltas.getD 0 0
    parseLoop refSeq refStartPos isReverse target deltas mlData mlOffset
      (seq.zip seqToRef) 0 0 nextTarget

/-- Modelled from the spec: §4.4 step 4 requires that for reverse-strand
reads the decoder "iterate the stored sequence right-to-left" (original
5'→3' order), matching `G` and validating that the preceding reference base
is `C`; everything else is as in the code.  This traverses the zipped
sequence reversed. -/
def specParseReadReverse (mm : List Char) (mlData : List Nat) (seq : List Char)
    (pos : Int) (cigar : List (CigarOp × Nat)) (refSeq : List Char)
    (refStartPos : Int) : List MethylCall :=
  let cm := "C+m?".toList
  let mlOffset := mlOffsetOf mm
  let deltas := match findSub cm mm with
    | some _ => parseMmTag mm cm
    | none => []
  if deltas = [] then []
  else if mlOffset + (deltas.length : Int) < 0 ∨
      (mlOffset + (deltas.length : Int)).toNat > mlData.length then []
  else
    let seqToRef := buildSeqToRefMap seq.length pos cigar
    let nextTarget : Int := if deltas = [] then -1 else deltas.getD 0 0
    parseLoop refSeq refStartPos true 'G' deltas mlData mlOffset
      (seq.zip seqToRef).reverse 0 0 nextTarget

/-! ## Binarization (src/src/core/RegionProcessor.cpp lines 437-455) and
threshold validation (src/src/core/Config.cpp lines 100-109) -/

/-- The cell binarization in `RegionProcessor::process_single_region`
(RegionProcessor.cpp lines 437-455): `-1` for the missing sentinel
(`val < 0`), else thresholded against the hard-coded constants `0.8` and
`0.2`. -/
def binarizeCell (val : ℚ) : Int :=
  if val < 0 then -1
  else if val ≥ 8 / 10 then 1
  else if val ≤ 2 / 10 then 0
  else -1

/-- Modelled from the spec: binarization of a (possibly missing) raw cell
against the *configured* methylated-high / unmethylated-low thresholds
(spec §3: "binary (−1 missing; 0 if raw ≤ low_threshold; 1 if raw ≥
high_threshold; −1 otherwise)"). -/
def specBinarize (high low : ℚ) (cell : Option ℚ) : Int :=
  match cell with
  | none => -1
  | some p => if p ≥ high then 1 else if p ≤ low then 0 else -1

/-- The threshold checks of `Config::validate` (Config.cpp lines 100-109):
rejects `high ≤ low` and thresholds outside `[0,1]`. -/
def validateThresholds (high low : ℚ) : Bool :=
  !(decide (high ≤ low)) &&
    !(decide (high > 1) || decide (high < 0) || decide (low > 1) || decide (low < 0))

/-! ### Claims C1-C3 -/

/-- C1: the claim states that for reverse-strand reads the decoder iterates
the stored sequence right-to-left (original 5'→3' order).  The code's scan
(`for seq_idx = 0; ...; seq_idx++`) runs left-to-right regardless of
strand.  On a reverse read with stored sequence `AGAG`, CIGAR `4M` at
reference `CGCG` (both stored `G`s sit in valid CpG context) and one delta
`0`, the code marks the *leftmost* stored `G` and reports CpG position 1,
whereas the spec-mandated right-to-left traversal marks the rightmost
stored `G` and reports CpG position 3. -/
theorem c1_reverse_iteration_divergence :
    parseRead ("C+m?,0;".toList) [200] ("AGAG".toList) 0 [(CigarOp.M, 4)]
        ("CGCG".toList) 0 true = [⟨1, 200⟩] ∧
    specParseReadReverse ("C+m?,0;".toList) [200] ("AGAG".toList) 0
        [(CigarOp.M, 4)] ("CGCG".toList) 0 = [⟨3, 200⟩] := by
  constructor <;> decide

/-- C2: the claim states that the starting index into the ML byte array for
`C+m?` equals the total delta count of the preceding modification-type
entries.  The code computes commas-minus-semicolons before `C+m?`, which
undercounts by one per preceding entry: on `C+h?,7;C+m?,0;` the single
preceding entry holds one delta, so the correct offset is 1, but the code
computes 0. -/
theorem c2_ml_offset_divergence :
    mlOffsetOf ("C+h?,7;C+m?,0;".toList) = 0 ∧
    specMlOffset ("C+h?,7;C+m?,0;".toList) = 1 := by
  constructor <;> decide

/-- C3: the claim states the binary value is thresholded against the
*configured* thresholds.  The code hard-codes `0.8`/`0.2` and never reads
`Config::binary_methyl_high/low`: under the valid configuration
`high = 0.9, low = 0.1` a raw value `0.85` must binarize to `-1` per the
claim, but the code produces `1`. -/
theorem c3_threshold_divergence :
    validateThresholds (9 / 10) (1 / 10) = true ∧
    binarizeCell (85 / 100) = 1 ∧
    specBinarize (9 / 10) (1 / 10) (some (85 / 100)) = -1 := by
  refine ⟨?_, ?_, ?_⟩ <;> norm_num [validateThresholds, binarizeCell, specBinarize]

/-! ## Distance kernels (src/src/core/DistanceMatrix.cpp)

Binary rows are `List Int` (`-1` missing), raw rows `List (Option ℚ)`
(`none` for the NaN sentinel).  Each kernel returns the distance (or `-1`
for an invalid pair) together with the common-count out-parameter. -/

/-- The counting loop of `calculate_nhd` (DistanceMatrix.cpp lines 31-48):
`(common_count, diff_count)` over the columns of row `i`. -/
def nhdCounts (bi bj : List Int) : Nat × Nat :=
  (List.range bi.length).foldl
    (fun acc k =>
      let vi := bi.getD k 0
      let vj := bj.getD k 0
      if vi ≠ -1 ∧ vj ≠ -1 then
        (acc.1 + 1, if vi ≠ vj then acc.2 + 1 else acc.2)
      else acc)
    (0, 0)

/-- Embeds `calculate_nhd` (lines 31-55). -/
def calculateNhd (bi bj : List Int) (minCov : Int) : ℚ × Nat :=
  let cd := nhdCounts bi bj
  if (cd.1 : Int) < minCov then (-1, cd.1)
  else ((cd.2 : ℚ) / (cd.1 : ℚ), cd.1)

/-- The accumulation loop of `calculate_l1` (lines 62-76):
`(common_count, sum_diff)`. -/
def l1Sums (ri rj : List (Option ℚ)) : Nat × ℚ :=
  (List.range ri.length).foldl
    (fun acc k =>
      match ri.getD k none, rj.getD k none with
      | some a, some b => (acc.1 + 1, acc.2 + |a - b|)
      | _, _ => acc)
    (0, 0)

/-- Embeds `calculate_l1` (lines 62-83). -/
def calculateL1 (ri rj : List (Option ℚ)) (minCov : Int) : ℚ × Nat :=
  let s := l1Sums ri rj
  if (s.1 : Int) < minCov then (-1, s.1)
  else (s.2 / (s.1 : ℚ), s.1)

/-- The accumulation loop of `calculate_l2` (lines 90-105):
`(common_count, sum_sq_diff)`. -/
def l2Sums (ri rj : List (Option ℚ)) : Nat × ℚ :=
  (List.range ri.length).foldl
    (fun acc k =>
      match ri.getD k none, rj.getD k none with
      | some a, some b => (acc.1 + 1, acc.2 + (a - b) * (a - b))
      | _, _ => acc)
    (0, 0)

/-- Embeds `calculate_l2` (lines 90-112); the square root forces `ℝ`. -/
noncomputable def calculateL2 (ri rj : List (Option ℚ)) (minCov : Int) : ℝ × Nat :=
  let s := l2Sums ri rj
  if (s.1 : Int) < minCov then (-1, s.1)
  else (Real.sqrt ((s.2 / (s.1 : ℚ) : ℚ) : ℝ), s.1)

/-- The common-value collection of `calculate_corr` (lines 123-135):
the list of `(vals_i[k], vals_j[k])` pairs. -/
def commonVals (ri rj : List (Option ℚ)) : List (ℚ × ℚ) :=
  (List.range ri.length).filterMap
    (fun k =>
      match ri.getD k none, rj.getD k none with
      | some a, some b => some (a, b)
      | _, _ => none)

/-- The three accumulated sums of `calculate_corr` (lines 144-159):
`(sum_prod, sum_sq_i, sum_sq_j)` with optional mean-centering. -/
def corrSums (ps : List (ℚ × ℚ)) (center : Bool) : ℚ × ℚ × ℚ :=
  let m := (ps.length : ℚ)
  let meanI := (ps.map Prod.fst).sum / m
  let meanJ := (ps.map Prod.snd).sum / m
  let dI : ℚ → ℚ := fun x => if center then x - meanI else x
  let dJ : ℚ → ℚ := fun x => if center then x - meanJ else x
  ((ps.map (fun p => dI p.1 * dJ p.2)).sum,
   (ps.map (fun p => dI p.1 * dI p.1)).sum,
   (ps.map (fun p => dJ p.2 * dJ p.2)).sum)

/-- The Pearson correlation coefficient of a list of common-value pairs
(mean-centered, as in the spec's "Pearson over common columns"). -/
noncomputable def pearsonR (ps : List (ℚ × ℚ)) : ℝ :=
  let s := corrSums ps true
  (s.1 : ℝ) / (Real.sqrt (s.2.1 : ℝ) * Real.sqrt (s.2.2 : ℝ))

/-- Embeds `calculate_corr` (lines 121-175). -/
noncomputable def calculateCorr (ri rj : List (Option ℚ)) (minCov : Int)
    (center : Bool) : ℝ × Nat :=
  let ps := commonVals ri rj
  let m := ps.length
  if (m : Int) < minCov ∨ m < 3 then (-1, m)
  else
    let s := corrSums ps center
    if s.2.1 < 1 / 10 ^ 10 ∨ s.2.2 < 1 / 10 ^ 10 then (1, m)
    else
      let corr : ℝ := (s.1 : ℝ) / (Real.sqrt (s.2.1 : ℝ) * Real.sqrt (s.2.2 : ℝ))
      let corr := max (-1) (min 1 corr)
      ((1 - corr) / 2, m)

/-- The accumulation loop of `calculate_jaccard` (lines 192-221):
`(common_count, intersection, union_size)`. -/
def jaccardCounts (bi bj : List Int) (includeUnmeth : Bool) : Nat × Nat × Nat :=
  (List.range bi.length).foldl
    (fun acc k =>
      let vi := bi.getD k 0
      let vj := bj.getD k 0
      if vi = -1 ∨ vj = -1 then acc
      else if includeUnmeth then
        (acc.1 + 1, if vi = vj then acc.2.1 + 1 else acc.2.1, acc.2.2 + 1)
      else
        let inI := vi = 1
        let inJ := vj = 1
        if inI ∨ inJ then
          (acc.1 + 1, if inI ∧ inJ then acc.2.1 + 1 else acc.2.1, acc.2.2 + 1)
        else (acc.1 + 1, acc.2.1, acc.2.2))
    (0, 0, 0)

/-- Embeds `calculate_jaccard` (lines 185-234). -/
def calculateJaccard (bi bj : List Int) (minCov : Int) (includeUnmeth : Bool) :
    ℚ × Nat :=
  let c := jaccardCounts bi bj includeUnmeth
  if (c.1 : Int) < minCov then (-1, c.1)
  else if c.2.2 = 0 then (0, c.1)
  else (1 - (c.2.1 : ℚ) / (c.2.2 : ℚ), c.1)

/-- The accumulation loop of `calculate_bernoulli` (lines 266-287):
`(common_count, sum_weighted_diff, sum_weights)` with
`w = (2|p_i − 1/2|)(2|p_j − 1/2|)` and `δ = p_i(1−p_j) + (1−p_i)p_j`. -/
def bernoulliSums (ri rj : List (Option ℚ)) : Nat × ℚ × ℚ :=
  (List.range ri.length).foldl
    (fun acc k =>
      match ri.getD k none, rj.getD k none with
      | some a, some b =>
        let w := (2 * |a - 1 / 2|) * (2 * |b - 1 / 2|)
        let delta := a * (1 - b) + (1 - a) * b
        (acc.1 + 1, acc.2.1 + w * delta, acc.2.2 + w)
      | _, _ => acc)
    (0, 0, 0)

/-- Embeds `calculate_bernoulli` (lines 254-302). -/
def calculateBernoulli (ri rj : List (Option ℚ)) (minCov : Int) : ℚ × Nat :=
  let s := bernoulliSums ri rj
  if (s.1 : Int) < minCov then (-1, s.1)
  else if s.2.2 < 1 / 10 ^ 9 then (-1, s.1)
  else (s.2.1 / s.2.2, s.1)

/-- Embeds `DistanceMetricType` (Types.hpp). -/
inductive DistanceMetricType where
  | NHD | L1 | L2 | CORR | JACCARD | BERNOULLI
  deriving DecidableEq, Repr

/-- Embeds `NanDistanceStrategy` (Types.hpp). -/
inductive NanDistanceStrategy where
  | MAX_DIST | SKIP
  deriving DecidableEq, Repr

/-- Embeds `DistanceConfig` (DistanceMatrix.hpp lines 20-35); only the fields the
kernels and driver read. -/
structure DistanceConfig where
  metric : DistanceMetricType := .NHD
  minCommonCoverage : Int := 5
  nanStrategy : NanDistanceStrategy := .MAX_DIST
  maxDistanceValue : ℚ := 1
  pearsonCenter : Bool := true
  jaccardIncludeUnmeth : Bool := false

/-- Embeds `MethylationMatrix` (MethylationMatrix.hpp): parallel raw and binary
matrices stored as lists of rows, plus the read ids. -/
structure MethylationMatrix where
  readIds : List Int := []
  raw : List (List (Option ℚ)) := []
  binary : List (List Int) := []

/-- Embeds `calculate_distance_impl` (DistanceMatrix.cpp lines 307-351): dispatch
on the metric; returns `(distance, common_count)`. -/
noncomputable def calcDistImpl (mat : MethylationMatrix) (rowI rowJ : Nat)
    (config : DistanceConfig) : ℝ × Nat :=
  match config.metric with
  | .NHD =>
    let r := calculateNhd (mat.binary.getD rowI []) (mat.binary.getD rowJ [])
      config.minCommonCoverage
    ((r.1 : ℝ), r.2)
  | .L1 =>
    let r := calculateL1 (mat.raw.getD rowI []) (mat.raw.getD rowJ [])
      config.minCommonCoverage
    ((r.1 : ℝ), r.2)
  | .L2 =>
    calculateL2 (mat.raw.getD rowI []) (mat.raw.getD rowJ [])
      config.minCommonCoverage
  | .CORR =>
    calculateCorr (mat.raw.getD rowI []) (mat.raw.getD rowJ [])
      config.minCommonCoverage config.pearsonCenter
  | .JACCARD =>
    let r := calculateJaccard (mat.binary.getD rowI []) (mat.binary.getD rowJ [])
      config.minCommonCoverage config.jaccardIncludeUnmeth
    ((r.1 : ℝ), r.2)
  | .BERNOULLI =>
    let r := calculateBernoulli (mat.raw.getD rowI []) (mat.raw.getD rowJ [])
      config.minCommonCoverage
    ((r.1 : ℝ), r.2)

/-- The unordered pairs `(i, j)` with `i < j < n`, enumerated as by the
upper-triangle loop nest of `compute_subset` (lines 426-443). -/
def pairsUpTo (n : Nat) : List (Nat × Nat) :=
  (List.range n).flatMap (fun i => ((List.range n).drop (i + 1)).map (fun j => (i, j)))

/-- Result of `DistanceMatrix::compute_subset`: the entry function models
`dist_matrix` (`none` is the NaN cell written under the SKIP strategy),
plus the statistics fields. -/
structure DistanceMatrixResult where
  readIds : List Int
  size : Nat
  entry : Nat → Nat → Option ℝ
  numValidPairs : Nat
  numInvalidPairs : Nat
  avgCommonCoverage : ℚ

open Classical in
/-- Embeds `DistanceMatrix::compute_subset` (lines 391-452): computes every upper
triangle pair once, mirrors it, substitutes `nan_val` for invalid pairs and
accumulates the `(valid, invalid, total_coverage)` statistics. -/
noncomputable def computeSubset (mat : MethylationMatrix) (rowIndices : List Nat)
    (config : DistanceConfig) : DistanceMatrixResult :=
  let n := rowIndices.length
  let nanVal : Option ℝ := match config.nanStrategy with
    | .SKIP => none
    | .MAX_DIST => some (config.maxDistanceValue : ℝ)
  let pairDist : Nat → Nat → ℝ × Nat := fun i j =>
    calcDistImpl mat (rowIndices.getD i 0) (rowIndices.getD j 0) config
  let pairVal : Nat → Nat → Option ℝ := fun i j =>
    if (pairDist i j).1 < 0 then nanVal else some (pairDist i j).1
  let stats : Nat × Nat × Nat :=
    (pairsUpTo n).foldl
      (fun acc p =>
        let r := pairDist p.1 p.2
        if r.1 < 0 then (acc.1, acc.2.1 + 1, acc.2.2)
        else (acc.1 + 1, acc.2.1, acc.2.2 + r.2))
      (0, 0, 0)
  { readIds := rowIndices.map (fun i => mat.readIds.getD i 0)
    size := n
    entry := fun i j =>
      if i = j then some 0
      else if i < j then pairVal i j
      else pairVal j i
    numValidPairs := stats.1
    numInvalidPairs := stats.2.1
    avgCommonCoverage :=
      if 0 < stats.1 then (stats.2.2 : ℚ) / (stats.1 : ℚ) else 0 }

/-- Every `compute_subset` matrix is symmetric (the mirrored assignment at
lines 440-441). -/
theorem computeSubset_entry_symm (mat : MethylationMatrix) (rowIndices : List Nat)
    (config : DistanceConfig) (i j : Nat) :
    (computeSubset mat rowIndices config).entry i j =
      (computeSubset mat rowIndices config).entry j i := by
  unfold computeSubset
  rcases lt_trichotomy i j with h | h | h
  · simp [h, h.ne, h.ne', h.asymm, Nat.not_lt_of_lt h]
  · simp [h]
  · simp [h, h.ne, h.ne', h.asymm, Nat.not_lt_of_lt h]

theorem list_sum_range (f : Nat → Nat) (n : Nat) :
    ((List.range n).map f).sum = ∑ i in Finset.range n, f i := by
  induction n with
  | zero => simp
  | succ m ih =>
    rw [List.range_succ, Finset.sum_range_succ, List.map_append, List.sum_append, ih]
    simp

/-- The upper-triangle loop nest enumerates `n(n-1)/2` pairs. -/
theorem pairsUpTo_length (n : Nat) : (pairsUpTo n).length = n * (n - 1) / 2 := by
  unfold pairsUpTo
  rw [List.length_flatMap]
  have h1 : (List.map (List.length ∘ fun i => ((List.range n).drop (i + 1)).map
      (fun j => (i, j))) (List.range n)).sum
      = ((List.range n).map (fun i => n - (i + 1))).sum := by
    congr 1
    apply List.map_congr_left
    intro i _
    simp
  rw [h1, list_sum_range]
  have h2 : ∑ i in Finset.range n, (n - (i + 1)) = ∑ i in Finset.range n, i := by
    calc ∑ i in Finset.range n, (n - (i + 1))
        = ∑ i in Finset.range n, (n - 1 - i) := by
          apply Finset.sum_congr rfl; intro i _; omega
      _ = ∑ i in Finset.range n, i := Finset.sum_range_reflect (fun j => j) n
  rw [h2, Finset.sum_range_id]

open Classical in
/-- Each pair enumerated by the driver bumps exactly one of the two
statistics counters. -/
theorem foldl_pair_stats {α : Type} (g : α → ℝ × Nat) :
    ∀ (l : List α) (a b c : Nat),
      ((l.foldl
          (fun acc p =>
            let r := g p
            if r.1 < 0 then (acc.1, acc.2.1 + 1, acc.2.2)
            else (acc.1 + 1, acc.2.1, acc.2.2 + r.2))
          (a, b, c)).1 : Nat) +
        (l.foldl
          (fun acc p =>
            let r := g p
            if r.1 < 0 then (acc.1, acc.2.1 + 1, acc.2.2)
            else (acc.1 + 1, acc.2.1, acc.2.2 + r.2))
          (a, b, c)).2.1 = a + b + l.length := by
  intro l
  induction l with
  | nil => intro a b c; simp
  | cons p rest ih =>
    intro a b c
    by_cases h : (g p).1 < 0 <;> simp only [List.foldl_cons, h, if_pos, if_neg,
      not_false_iff, List.length_cons] <;> rw [ih] <;> omega

/-- C7: every distance-matrix computation over `n` selected rows reports
`valid_pairs + invalid_pairs = n(n-1)/2` — each unordered pair of distinct
rows is counted exactly once as valid or invalid. -/
theorem c7_pair_count_invariant (mat : MethylationMatrix) (rowIndices : List Nat)
    (config : DistanceConfig) :
    (computeSubset mat rowIndices config).numValidPairs +
      (computeSubset mat rowIndices config).numInvalidPairs =
      rowIndices.length * (rowIndices.length - 1) / 2 := by
  unfold computeSubset
  simp only
  rw [foldl_pair_stats (fun p : Nat × Nat =>
    calcDistImpl mat (rowIndices.getD p.1 0) (rowIndices.getD p.2 0) config)]
  simp [pairsUpTo_length]

/-! ### Claim C5: the concrete NHD scenario -/

/-- The 4×5 binary matrix of spec §8 scenario 1 (raw rows all-missing; NHD
only reads the binary matrix). -/
def c5Mat : MethylationMatrix where
  readIds := [0, 1, 2, 3]
  raw := [List.replicate 5 none, List.replicate 5 none,
          List.replicate 5 none, List.replicate 5 none]
  binary := [[1, 1, 0, 0, -1], [1, 0, 0, -1, -1], [0, 0, 1, 1, 1], [-1, -1, 1, 1, 1]]

/-- NHD with `C_min = 2` (and default strategy/threshold fields). -/
def c5Cfg : DistanceConfig := { metric := .NHD, minCommonCoverage := 2 }

/-- C5: on the 4×5 binary matrix with rows `[1,1,0,0,−]`, `[1,0,0,−,−]`,
`[0,0,1,1,1]`, `[−,−,1,1,1]` and `C_min = 2`, the NHD distance matrix has
`d(0,1) = 1/3`, `d(0,2) = 1.0`, `d(2,3) = 0.0` and is symmetric. -/
theorem c5_nhd_concrete_matrix :
    (computeSubset c5Mat [0, 1, 2, 3] c5Cfg).entry 0 1 = some ((1 : ℝ) / 3) ∧
    (computeSubset c5Mat [0, 1, 2, 3] c5Cfg).entry 0 2 = some 1 ∧
    (computeSubset c5Mat [0, 1, 2, 3] c5Cfg).entry 2 3 = some 0 ∧
    ∀ i j, (computeSubset c5Mat [0, 1, 2, 3] c5Cfg).entry i j
      = (computeSubset c5Mat [0, 1, 2, 3] c5Cfg).entry j i := by
  have h01 : calculateNhd [1, 1, 0, 0, -1] [1, 0, 0, -1, -1] 2 = (1 / 3, 3) := by
    rw [calculateNhd, show nhdCounts [1, 1, 0, 0, -1] [1, 0, 0, -1, -1] = (3, 1)
      from by decide]
    norm_num
  have h02 : calculateNhd [1, 1, 0, 0, -1] [0, 0, 1, 1, 1] 2 = (1, 4) := by
    rw [calculateNhd, show nhdCounts [1, 1, 0, 0, -1] [0, 0, 1, 1, 1] = (4, 4)
      from by decide]
    norm_num
  have h23 : calculateNhd [0, 0, 1, 1, 1] [-1, -1, 1, 1, 1] 2 = (0, 3) := by
    rw [calculateNhd, show nhdCounts [0, 0, 1, 1, 1] [-1, -1, 1, 1, 1] = (3, 0)
      from by decide]
    norm_num
  refine ⟨?_, ?_, ?_, fun i j => computeSubset_entry_symm c5Mat [0, 1, 2, 3] c5Cfg i j⟩
  · simp [computeSubset, calcDistImpl, c5Mat, c5Cfg, h01]
  · simp [computeSubset, calcDistImpl, c5Mat, c5Cfg, h02]
  · simp [computeSubset, calcDistImpl, c5Mat, c5Cfg, h23]

/-! ### Claim C4: the correlation kernel -/

theorem list_sum_map_getD {α : Type} [Inhabited α] (f : α → ℚ) :
    ∀ ps : List α,
      (ps.map f).sum = ∑ k in Finset.range ps.length, f (ps.getD k default) := by
  intro ps
  induction ps with
  | nil => simp
  | cons a l ih =>
    rw [List.map_cons, List.sum_cons, List.length_cons, Finset.sum_range_succ', ih]
    simp [add_comm]

/-- Cauchy-Schwarz over lists of pairs, in the `x*x` form used by the
correlation sums. -/
theorem cs_list (f g : (ℚ × ℚ) → ℚ) (ps : List (ℚ × ℚ)) :
    (ps.map (fun p => f p * g p)).sum ^ 2 ≤
      (ps.map (fun p => f p * f p)).sum * (ps.map (fun p => g p * g p)).sum := by
  rw [list_sum_map_getD (fun p => f p * g p), list_sum_map_getD (fun p => f p * f p),
    list_sum_map_getD (fun p => g p * g p)]
  have h1 : (∑ k in Finset.range ps.length, f (ps.getD k default) * f (ps.getD k default))
      = ∑ k in Finset.range ps.length, f (ps.getD k default) ^ 2 :=
    Finset.sum_congr rfl (fun k _ => by ring)
  have h2 : (∑ k in Finset.range ps.length, g (ps.getD k default) * g (ps.getD k default))
      = ∑ k in Finset.range ps.length, g (ps.getD k default) ^ 2 :=
    Finset.sum_congr rfl (fun k _ => by ring)
  simp only at h1 h2 ⊢
  rw [h1, h2]
  exact Finset.sum_mul_sq_le_sq_mul_sq (Finset.range ps.length) _ _

/-- Cauchy-Schwarz for the three correlation sums: the squared product-sum
is at most the product of the squared sums. -/
theorem corrSums_cauchy_schwarz (ps : List (ℚ × ℚ)) (center : Bool) :
    (corrSums ps center).1 ^ 2 ≤ (corrSums ps center).2.1 * (corrSums ps center).2.2 := by
  unfold corrSums
  simp only
  exact cs_list
    (fun p => if center then p.1 - (ps.map Prod.fst).sum / (ps.length : ℚ) else p.1)
    (fun p => if center then p.2 - (ps.map Prod.snd).sum / (ps.length : ℚ) else p.2) ps

/-- If both squared sums are at least the `1e-10` cutoff, the clamp of the
correlation coefficient to `[-1, 1]` is the identity, so the code's result
coincides with `(1 - r)/2` for the true Pearson `r`. -/
theorem corr_clamp_eq (sp si sj : ℚ) (hsi : ¬si < 1 / 10 ^ 10) (hsj : ¬sj < 1 / 10 ^ 10)
    (hcs : sp ^ 2 ≤ si * sj) :
    max (-1 : ℝ) (min 1 ((sp : ℝ) / (Real.sqrt (si : ℝ) * Real.sqrt (sj : ℝ)))) =
      (sp : ℝ) / (Real.sqrt (si : ℝ) * Real.sqrt (sj : ℝ)) := by
  push_neg at hsi hsj
  have hsi0 : (0 : ℚ) < si := lt_of_lt_of_le (by norm_num) hsi
  have hsj0 : (0 : ℚ) < sj := lt_of_lt_of_le (by norm_num) hsj
  have hsiR : (0 : ℝ) < (si : ℝ) := by exact_mod_cast hsi0
  have hsjR : (0 : ℝ) < (sj : ℝ) := by exact_mod_cast hsj0
  have hden : (0 : ℝ) < Real.sqrt (si : ℝ) * Real.sqrt (sj : ℝ) :=
    mul_pos (Real.sqrt_pos.2 hsiR) (Real.sqrt_pos.2 hsjR)
  have habs : |(sp : ℝ)| ≤ Real.sqrt (si : ℝ) * Real.sqrt (sj : ℝ) := by
    rw [← Real.sqrt_mul hsiR.le]
    calc |(sp : ℝ)| = Real.sqrt ((sp : ℝ) ^ 2) := (Real.sqrt_sq_eq_abs _).symm
      _ ≤ Real.sqrt ((si : ℝ) * (sj : ℝ)) := by
          apply Real.sqrt_le_sqrt
          exact_mod_cast hcs
  have hr : |(sp : ℝ) / (Real.sqrt (si : ℝ) * Real.sqrt (sj : ℝ))| ≤ 1 := by
    rw [abs_div, abs_of_pos hden]
    exact (div_le_one hden).2 habs
  obtain ⟨hr1, hr2⟩ := abs_le.1 hr
  rw [min_eq_right hr2, max_eq_right hr1]

/-- C4, amended: validity of the correlation distance is exactly
`common ≥ max(C_min, 3)`; a valid pair where either centered squared sum is
below the `1e-10` cutoff (in particular any zero-variance row) yields 1.0;
a valid pair where both are at least the cutoff yields `(1 - r)/2` for the
Pearson correlation `r` over the common columns. -/
theorem c4_correlation_amended (ri rj : List (Option ℚ)) (minCov : Int) :
    (((calculateCorr ri rj minCov true).1 ≠ -1) ↔
      (minCov ≤ ((commonVals ri rj).length : Int) ∧ 3 ≤ (commonVals ri rj).length)) ∧
    (minCov ≤ ((commonVals ri rj).length : Int) → 3 ≤ (commonVals ri rj).length →
      (((corrSums (commonVals ri rj) true).2.1 < 1 / 10 ^ 10 ∨
          (corrSums (commonVals ri rj) true).2.2 < 1 / 10 ^ 10) →
        (calculateCorr ri rj minCov true).1 = 1) ∧
      (¬((corrSums (commonVals ri rj) true).2.1 < 1 / 10 ^ 10 ∨
          (corrSums (commonVals ri rj) true).2.2 < 1 / 10 ^ 10) →
        (calculateCorr ri rj minCov true).1 =
          (1 - pearsonR (commonVals ri rj)) / 2)) := by
  unfold calculateCorr
  simp only
  by_cases hvalid : ((commonVals ri rj).length : Int) < minCov ∨ (commonVals ri rj).length < 3
  · rw [if_pos hvalid]
    constructor
    · simp only [ne_eq, not_true_eq_false, false_iff, not_and]
      intro h1 h2
      rcases hvalid with h | h <;> omega
    · intro h1 h2
      exact absurd hvalid (by push_neg; omega)
  · rw [if_neg hvalid]
    push_neg at hvalid
    by_cases heps : (corrSums (commonVals ri rj) true).2.1 < 1 / 10 ^ 10 ∨
        (corrSums (commonVals ri rj) true).2.2 < 1 / 10 ^ 10
    · rw [if_pos heps]
      constructor
      · simp only [ne_eq]
        constructor
        · intro _
          exact ⟨hvalid.1, hvalid.2⟩
        · intro _
          norm_num
      · intro _ _
        exact ⟨fun _ => rfl, fun h => absurd heps h⟩
    · rw [if_neg heps]
      push_neg at heps
      have hclamp := corr_clamp_eq (corrSums (commonVals ri rj) true).1
        (corrSums (commonVals ri rj) true).2.1 (corrSums (commonVals ri rj) true).2.2
        (not_lt.2 heps.1) (not_lt.2 heps.2) (corrSums_cauchy_schwarz _ _)
      have hle : max (-1 : ℝ)
          (min 1 (((corrSums (commonVals ri rj) true).1 : ℝ) /
            (Real.sqrt ((corrSums (commonVals ri rj) true).2.1 : ℝ) *
             Real.sqrt ((corrSums (commonVals ri rj) true).2.2 : ℝ)))) ≤ 1 :=
        max_le (by norm_num) (min_le_left _ _)
      constructor
      · constructor
        · intro _
          exact ⟨hvalid.1, hvalid.2⟩
        · intro _
          simp only [ne_eq]
          intro hcon
          have hnn : (0 : ℝ) ≤ (1 - max (-1 : ℝ)
              (min 1 (((corrSums (commonVals ri rj) true).1 : ℝ) /
                (Real.sqrt ((corrSums (commonVals ri rj) true).2.1 : ℝ) *
                 Real.sqrt ((corrSums (commonVals ri rj) true).2.2 : ℝ))))) / 2 := by
            linarith
          rw [hcon] at hnn
          linarith
      · intro _ _
        refine ⟨fun h => ?_, fun _ => ?_⟩
        · rcases h with h | h
          · exact absurd h (not_lt.2 heps.1)
          · exact absurd h (not_lt.2 heps.2)
        · simp only
          rw [hclamp]
          unfold pearsonR
          simp only

/-- The row used in the C4 counterexample: tiny but nonzero variance. -/
def c4Row : List (Option ℚ) := [some 0, some (1 / 1000000), some 0]

/-- C4, counterexample to the claim as stated: with `C_min = 3` the pair
`(c4Row, c4Row)` is valid (`common = 3 = max(C_min,3)`) and neither row has
zero variance, yet the code returns 1.0 while `(1 - r)/2 = 0` for the
Pearson correlation `r = 1`; the `1e-10` near-zero-variance cutoff, not
zero variance, decides the 1.0 branch. -/
theorem c4_correlation_counterexample :
    (calculateCorr c4Row c4Row 3 true).1 = 1 ∧
    (1 - pearsonR (commonVals c4Row c4Row)) / 2 = 0 ∧
    (corrSums (commonVals c4Row c4Row) true).2.1 ≠ 0 ∧
    (corrSums (commonVals c4Row c4Row) true).2.2 ≠ 0 ∧
    (3 : Int) ≤ ((commonVals c4Row c4Row).length : Int) ∧
    3 ≤ (commonVals c4Row c4Row).length ∧
    (calculateCorr c4Row c4Row 3 true).1 ≠ (1 - pearsonR (commonVals c4Row c4Row)) / 2 := by
  have hps : commonVals c4Row c4Row =
      [(0, 0), (1 / 1000000, 1 / 1000000), (0, 0)] := by rfl
  have hsums : corrSums (commonVals c4Row c4Row) true =
      (1 / 1500000000000, 1 / 1500000000000, 1 / 1500000000000) := by
    rw [hps]
    norm_num [corrSums]
  have hres : (calculateCorr c4Row c4Row 3 true).1 = 1 := by
    unfold calculateCorr
    simp only
    rw [if_neg (by rw [hps]; norm_num)]
    rw [show corrSums (commonVals c4Row c4Row) true =
      (1 / 1500000000000, 1 / 1500000000000, 1 / 1500000000000) from hsums]
    rw [if_pos (by norm_num)]
  have hpear : pearsonR (commonVals c4Row c4Row) = 1 := by
    unfold pearsonR
    rw [hsums]
    simp only
    rw [Real.mul_self_sqrt (by norm_num)]
    norm_num
  refine ⟨hres, by rw [hpear]; norm_num, by rw [hsums]; norm_num,
    by rw [hsums]; norm_num, by rw [hps]; norm_num, by rw [hps]; norm_num, ?_⟩
  rw [hres, hpear]
  norm_num

/-- Witness for `c4_correlation_amended`: on `([1,1,1], [0,1,0])` with
`C_min = 3` the pair is valid, the first centered squared sum is `0` (below
the cutoff), and the theorem yields distance 1.0. -/
theorem c4_correlation_amended_witness :
    (calculateCorr [some 1, some 1, some 1] [some 0, some 1, some 0] 3 true).1 = 1 := by
  have hps : commonVals [some 1, some 1, some 1] [some 0, some 1, some 0] =
      [(1, 0), (1, 1), (1, 0)] := by rfl
  have h := (c4_correlation_amended [some 1, some 1, some 1] [some 0, some 1, some 0] 3).2
    (by rw [hps]; norm_num) (by rw [hps]; norm_num)
  exact h.1 (Or.inl (by rw [hps]; norm_num [corrSums]))

/-! ## Read records, matrix builder and the region read loop
(src/include/core/DataStructs.hpp, src/src/core/MatrixBuilder.cpp,
src/src/core/RegionProcessor.cpp) -/

/-- Embeds `AltSupport` (DataStructs.hpp). -/
inductive AltSupport where
  | REF | ALT | UNKNOWN
  deriving DecidableEq, Repr

/-- Embeds `Strand` (DataStructs.hpp). -/
inductive Strand where
  | FORWARD | REVERSE | UNKNOWN
  deriving DecidableEq, Repr

/-- Embeds `ReadInfo` (DataStructs.hpp lines 25-36). -/
structure ReadInfo where
  readId : Int := 0
  readName : List Char := []
  chrId : Int := 0
  alignStart : Int := 0
  alignEnd : Int := 0
  mapq : Int := 0
  hpTag : List Char := []
  isTumor : Bool := true
  altSupport : AltSupport := .UNKNOWN
  strand : Strand := .UNKNOWN
  deriving DecidableEq, Repr

/-- The mutable state of `MatrixBuilder` (MatrixBuilder.hpp lines 95-104):
reads, the per-read call buffers, the sorted CpG positions, the filled
matrix and the `finalized_` flag. -/
structure MatrixBuilderState where
  reads : List ReadInfo := []
  readMethylData : List (List (Int × ℚ)) := []
  cpgPositions : List Int := []
  matrix : List (List ℚ) := []
  finalized : Bool := false

/-- Embeds `MatrixBuilder::add_read` (MatrixBuilder.cpp lines 16-38): throws after
`finalize()`; otherwise appends the read and its `(pos, probability)`
pairs, returning the new row index. -/
def addRead (st : MatrixBuilderState) (info : ReadInfo) (calls : List MethylCall) :
    Except String (MatrixBuilderState × Nat) :=
  if st.finalized then
    .error "MatrixBuilder::add_read: Cannot add reads after finalize()"
  else
    let readId := st.reads.length
    .ok ({ st with
            reads := st.reads ++ [info]
            readMethylData := st.readMethylData ++
              [calls.map (fun c => (c.refPos, c.probability))] },
         readId)

/-- Embeds `MatrixBuilder::finalize` (MatrixBuilder.cpp lines 40-105): no-op when
already finalized; otherwise collects all positions, sorts them, removes
consecutive duplicates (`std::unique` after `std::sort`), allocates the
matrix prefilled with `-1`, fills each row from its call buffer, clears the
buffers and sets the flag. -/
def finalize (st : MatrixBuilderState) : MatrixBuilderState :=
  if st.finalized then st
  else
    let allPositions := (st.readMethylData.map (fun calls => calls.map Prod.fst)).flatten
    let sorted := allPositions.mergeSort (fun a b => decide (a ≤ b))
    let cpg := sorted.destutter (· ≠ ·)
    let numCols := cpg.length
    let base := List.replicate st.reads.length (List.replicate numCols (-1 : ℚ))
    let matrix := (List.range st.readMethylData.length).foldl
      (fun m rid =>
        let newRow := (st.readMethylData.getD rid []).foldl
          (fun row p =>
            match cpg.findIdx? (· = p.1) with
            | some c => row.set c p.2
            | none => row)
          (m.getD rid [])
        m.set rid newRow)
      base
    { st with
        readMethylData := []
        cpgPositions := cpg
        matrix := matrix
        finalized := true }

/-! ### Claim C9: `finalize()` is idempotent -/

/-- C9: calling `finalize()` on an already-finalized builder is a no-op:
the whole state — stored reads, sorted CpG positions and filled matrix —
is identical to its state after the first `finalize()`. -/
theorem c9_finalize_idempotent (st : MatrixBuilderState) :
    finalize (finalize st) = finalize st := by
  by_cases h : st.finalized
  · simp [finalize, h]
  · simp [finalize, h]

/-! ### Claim C8: at-most-once read names, first occurrence wins
(`RegionProcessor::process_single_region`, RegionProcessor.cpp lines
336-385) -/

/-- The per-read data the region loop inspects: the keep decision of
`should_keep_with_reason`, the parsed name (suffix-disambiguated), the
ALT-support call and the strand. -/
structure ArchiveRead where
  keep : Bool
  name : List Char
  altSupport : AltSupport
  strand : Strand
  deriving DecidableEq, Repr

/-- The read loop of `process_single_region` (lines 339-385), reduced to
the reads it adds to the matrix builder: drop filtered reads (unless
`no_filter_output_`), drop UNKNOWN ALT-support reads (unless
`no_filter_output_`), drop names already in `processed_read_names`. -/
def regionReadLoop (noFilter : Bool) : List ArchiveRead → List (List Char) → List ArchiveRead
  | [], _ => []
  | b :: rest, seen =>
    if ¬b.keep ∧ ¬noFilter then regionReadLoop noFilter rest seen
    else if b.altSupport = .UNKNOWN ∧ ¬noFilter then regionReadLoop noFilter rest seen
    else if b.name ∈ seen then regionReadLoop noFilter rest seen
    else b :: regionReadLoop noFilter rest (b.name :: seen)

/-- The rows `process_single_region` adds to the matrix, in archive
order. -/
def processRegionReads (noFilter : Bool) (reads : List ArchiveRead) : List ArchiveRead :=
  regionReadLoop noFilter reads []

/-- The reads that pass the two filter gates of the loop (keep flag and
ALT-support), before name deduplication. -/
def eligibleReads (noFilter : Bool) (reads : List ArchiveRead) : List ArchiveRead :=
  reads.filter (fun b => (b.keep || noFilter) &&
    (decide (b.altSupport ≠ .UNKNOWN) || noFilter))

/-- First-occurrence-wins deduplication by read name: the first read with
each name is kept, every later read with the same name is dropped. -/
def firstOccurrences : List ArchiveRead → List (List Char) → List ArchiveRead
  | [], _ => []
  | b :: rest, seen =>
    if b.name ∈ seen then firstOccurrences rest seen
    else b :: firstOccurrences rest (b.name :: seen)

theorem regionReadLoop_eq_firstOccurrences (noFilter : Bool) :
    ∀ (reads : List ArchiveRead) (seen : List (List Char)),
      regionReadLoop noFilter reads seen =
        firstOccurrences (eligibleReads noFilter reads) seen := by
  intro reads
  induction reads with
  | nil => intro seen; simp [regionReadLoop, eligibleReads, firstOccurrences]
  | cons b rest ih =>
    intro seen
    have hel : eligibleReads noFilter (b :: rest) =
        if ((b.keep || noFilter) && (decide (b.altSupport ≠ .UNKNOWN) || noFilter)) = true
        then b :: eligibleReads noFilter rest else eligibleReads noFilter rest := by
      simp [eligibleReads, List.filter_cons]
    rw [regionReadLoop, hel]
    by_cases hno : noFilter = true
    · subst hno
      have h1 : ¬(¬b.keep ∧ ¬(true : Bool)) := by simp
      have h2 : ¬(b.altSupport = .UNKNOWN ∧ ¬(true : Bool)) := by simp
      have h3 : ((b.keep || true) && (decide (b.altSupport ≠ .UNKNOWN) || true)) = true := by
        simp
      rw [if_neg h1, if_neg h2, if_pos h3]
      by_cases hs : b.name ∈ seen
      · rw [if_pos hs, firstOccurrences, if_pos hs, ih]
      · rw [if_neg hs, firstOccurrences, if_neg hs, ih]
    · have hno' : noFilter = false := by simpa using hno
      subst hno'
      by_cases hkeep : b.keep = true
      · by_cases halt : b.altSupport = .UNKNOWN
        · have h1 : ¬(¬b.keep ∧ ¬(false : Bool)) := by simp [hkeep]
          have h2 : b.altSupport = .UNKNOWN ∧ ¬(false : Bool) := ⟨halt, by simp⟩
          have h3 : ((b.keep || false) && (decide (b.altSupport ≠ .UNKNOWN) || false)) = false := by
            simp [halt]
          rw [if_neg h1, if_pos h2, h3]
          simp only [Bool.false_eq_true, if_false]
          exact ih seen
        · have h1 : ¬(¬b.keep ∧ ¬(false : Bool)) := by simp [hkeep]
          have h2 : ¬(b.altSupport = .UNKNOWN ∧ ¬(false : Bool)) := by simp [halt]
          have h3 : ((b.keep || false) && (decide (b.altSupport ≠ .UNKNOWN) || false)) = true := by
            simp [hkeep, halt]
          rw [if_neg h1, if_neg h2, if_pos h3]
          by_cases hs : b.name ∈ seen
          · rw [if_pos hs, firstOccurrences, if_pos hs, ih]
          · rw [if_neg hs, firstOccurrences, if_neg hs, ih]
      · have hkf : b.keep = false := by simpa using hkeep
        have h1 : ¬b.keep ∧ ¬(false : Bool) := ⟨by simp [hkf], by simp⟩
        have h3 : ((b.keep || false) && (decide (b.altSupport ≠ .UNKNOWN) || false)) = false := by
          simp [hkf]
        rw [if_pos h1, h3]
        simp only [Bool.false_eq_true, if_false]
        exact ih seen

theorem firstOccurrences_names_nodup :
    ∀ (l : List ArchiveRead) (seen : List (List Char)),
      ((firstOccurrences l seen).map ArchiveRead.name).Nodup ∧
        ∀ n ∈ (firstOccurrences l seen).map ArchiveRead.name, n ∉ seen := by
  intro l
  induction l with
  | nil => intro seen; simp [firstOccurrences]
  | cons b rest ih =>
    intro seen
    rw [firstOccurrences]
    by_cases hs : b.name ∈ seen
    · rw [if_pos hs]; exact ih seen
    · rw [if_neg hs]
      obtain ⟨hnd, hnot⟩ := ih (b.name :: seen)
      constructor
      · rw [List.map_cons, List.nodup_cons]
        refine ⟨fun hmem => ?_, hnd⟩
        exact (hnot _ hmem) (List.mem_cons_self _ _)
      · intro n hn
        rw [List.map_cons, List.mem_cons] at hn
        rcases hn with rfl | hn
        · exact hs
        · intro hmem
          exact (hnot _ hn) (List.mem_cons_of_mem _ hmem)

/-- C8: in every processed region each read name appears at most once
among the matrix rows, and the rows are exactly the first occurrences (in
archive order) of each name among the reads that pass the filter gates. -/
theorem c8_read_names_at_most_once (noFilter : Bool) (reads : List ArchiveRead) :
    ((processRegionReads noFilter reads).map ArchiveRead.name).Nodup ∧
      processRegionReads noFilter reads =
        firstOccurrences (eligibleReads noFilter reads) [] := by
  have h := regionReadLoop_eq_firstOccurrences noFilter reads []
  refine ⟨?_, h⟩
  rw [processRegionReads, h]
  exact (firstOccurrences_names_nodup (eligibleReads noFilter reads) []).1

/-! ## Tree structure and hierarchical clustering
(src/include/core/TreeStructure.hpp, src/src/core/HierarchicalClustering.cpp)

Heights live in `ℝ` because WARD linkage converts distances to heights via
a square root.  The `bootstrap_support` field (constant at construction)
and the weak parent pointer (redundant with the tree structure) are not
modelled. -/

/-- Embeds `TreeNode` (TreeStructure.hpp lines 18-29). -/
inductive TreeNode where
  | leafN (node_id : Nat) (label : List Char) (height branchLen : ℝ) (leafIdx : List Nat)
  | internalN (node_id : Nat) (height branchLen : ℝ) (leafIdx : List Nat)
      (l r : TreeNode)

instance : Inhabited TreeNode := ⟨.leafN 0 [] 0 0 [0]⟩

def TreeNode.height : TreeNode → ℝ
  | .leafN _ _ h _ _ => h
  | .internalN _ h _ _ _ _ => h

def TreeNode.leafIndices : TreeNode → List Nat
  | .leafN _ _ _ _ li => li
  | .internalN _ _ _ li _ _ => li

/-- Mutation of `branch_length` (performed on the children by
`TreeNode::create_internal`). -/
def TreeNode.setBranchLen : TreeNode → ℝ → TreeNode
  | .leafN id lab h _ li, b => .leafN id lab h b li
  | .internalN id h _ li l r, b => .internalN id h b li l r

/-- Embeds `TreeNode::create_leaf` (TreeStructure.hpp lines 48-57): height 0,
`leaf_indices = {index}`. -/
def createLeaf (index : Nat) (name : List Char) : TreeNode :=
  .leafN index name 0 0 [index]

/-- Embeds `TreeNode::create_internal` (TreeStructure.hpp lines 62-92): sets the
children's branch lengths to `merge_height - child.height` and stores the
sorted concatenation of the children's `leaf_indices`. -/
def createInternal (node_id : Nat) (l r : TreeNode) (mergeHeight : ℝ) : TreeNode :=
  .internalN node_id mergeHeight 0
    ((l.leafIndices ++ r.leafIndices).mergeSort (fun a b => decide (a ≤ b)))
    (l.setBranchLen (mergeHeight - l.height))
    (r.setBranchLen (mergeHeight - r.height))

/-- Embeds `MergeRecord` (TreeStructure.hpp lines 100-106). -/
structure MergeRecord where
  clusterI : Nat
  clusterJ : Nat
  distance : ℚ
  newClusterId : Nat
  size : Nat

/-- Embeds `Tree` (TreeStructure.hpp lines 117-243): root plus merge records. -/
structure Tree where
  root : Option TreeNode := none
  mergeRecords : List MergeRecord := []

/-- Number of leaf nodes of the (binary) tree. -/
def TreeNode.leafCount : TreeNode → Nat
  | .leafN .. => 1
  | .internalN _ _ _ _ l r => l.leafCount + r.leafCount

/-- Number of nodes with children (what `Tree::get_internal_nodes`
collects). -/
def TreeNode.internalCount : TreeNode → Nat
  | .leafN .. => 0
  | .internalN _ _ _ _ l r => 1 + l.internalCount + r.internalCount

/-- Heights never decrease from child to parent; by transitivity heights
are non-decreasing along every root-ward path. -/
def TreeNode.heightsMono : TreeNode → Prop
  | .leafN .. => True
  | .internalN _ h _ _ l r =>
      l.height ≤ h ∧ r.height ≤ h ∧ l.heightsMono ∧ r.heightsMono

/-- Every leaf's `leaf_indices` is exactly the singleton of its own
index. -/
def TreeNode.leavesOwnIndex : TreeNode → Prop
  | .leafN id _ _ _ li => li = [id]
  | .internalN _ _ _ _ l r => l.leavesOwnIndex ∧ r.leavesOwnIndex

/-- Embeds `LinkageMethod` (HierarchicalClustering.hpp lines 22-27). -/
inductive LinkageMethod where
  | UPGMA | WARD | SINGLE | COMPLETE
  deriving DecidableEq, Repr

/-- Embeds `ClusteringConfig` (HierarchicalClustering.hpp lines 32-36); the
`optimal_leaf_ordering` flag is never read by `build_tree`. -/
structure ClusteringConfig where
  method : LinkageMethod := .UPGMA
  minBranchLength : ℝ := (1 : ℝ) / 1000000

/-- Models `std::numeric_limits<double>::max()`, the initial minimum in the
pair-selection scans. -/
def dblMax : ℚ := 2 ^ 1024 - 2 ^ 971

/-- The UPGMA cluster distance (HierarchicalClustering.cpp lines 72-85):
mean of `D(i,j)` over the two member lists. -/
def upgmaDist (D : Nat → Nat → ℚ) (ca cb : List Nat) : ℚ :=
  ((ca.map (fun i => (cb.map (fun j => D i j)).sum)).sum) /
    ((ca.length * cb.length : ℕ) : ℚ)

/-- The single-linkage cluster distance (lines 98-111): minimum `D(i,j)`,
starting from `DBL_MAX`. -/
def singleDist (D : Nat → Nat → ℚ) (ca cb : List Nat) : ℚ :=
  ca.foldl (fun m i => cb.foldl (fun mm j => min mm (D i j)) m) dblMax

/-- The complete-linkage cluster distance (lines 124-137): maximum
`D(i,j)`, starting from `0`. -/
def completeDist (D : Nat → Nat → ℚ) (ca cb : List Nat) : ℚ :=
  ca.foldl (fun m i => cb.foldl (fun mm j => max mm (D i j)) m) 0

/-- The WARD cluster distance (lines 153-175):
`(size_a·size_b/(size_a+size_b)) · mean(D(i,j)²)`. -/
def wardDist (D : Nat → Nat → ℚ) (ca cb : List Nat) (sizeA sizeB : Nat) : ℚ :=
  let avgSq := ((ca.map (fun i => (cb.map (fun j => D i j * D i j)).sum)).sum) /
    ((ca.length * cb.length : ℕ) : ℚ)
  (((sizeA * sizeB : ℕ) : ℚ) / ((sizeA + sizeB : ℕ) : ℚ)) * avgSq

/-- The `compute_cluster_distance` strategy chosen by `build_tree`'s
dispatch (lines 53-64) for each linkage method. -/
def clusterDistance (method : LinkageMethod) (D : Nat → Nat → ℚ)
    (ca cb : List Nat) (sizeA sizeB : Nat) : ℚ :=
  match method with
  | .UPGMA => upgmaDist D ca cb
  | .SINGLE => singleDist D ca cb
  | .COMPLETE => completeDist D ca cb
  | .WARD => wardDist D ca cb sizeA sizeB

/-- The `distance_to_height` strategy: `d/2`, except `sqrt(d)/2` for
WARD. -/
noncomputable def distToHeight (method : LinkageMethod) (d : ℚ) : ℝ :=
  match method with
  | .WARD => Real.sqrt (d : ℝ) / 2
  | _ => (d : ℝ) / 2

/-- The double scan of `build_generic` lines 221-240: over pairs in loop
order, keep the pair strictly improving on the best distance so far
(initially `DBL_MAX`); inactive indices are skipped. -/
def selectMinPair (dist : Nat → Nat → ℚ) (act : Nat → Bool) :
    List (Nat × Nat) → ℚ → Option ((Nat × Nat) × ℚ) → Option ((Nat × Nat) × ℚ)
  | [], _, best => best
  | p :: rest, bestD, best =>
    if act p.1 && act p.2 then
      if dist p.1 p.2 < bestD then
        selectMinPair dist act rest (dist p.1 p.2) (some (p, dist p.1 p.2))
      else selectMinPair dist act rest bestD best
    else selectMinPair dist act rest bestD best

/-- The loop state of `build_generic` (lines 197-213): parallel vectors of
nodes, member lists, sizes and active flags, plus the next internal node id
and the merge records. -/
structure ClusterState where
  nodes : List TreeNode
  members : List (List Nat)
  sizes : List Nat
  active : List Bool
  nextId : Nat
  records : List MergeRecord

def activeCount (st : ClusterState) : Nat := st.active.count true

/-- The minimum-distance active pair of the current state (lines
217-240). -/
def findMinPair (method : LinkageMethod) (D : Nat → Nat → ℚ) (st : ClusterState) :
    Option ((Nat × Nat) × ℚ) :=
  selectMinPair
    (fun i j => clusterDistance method D (st.members.getD i []) (st.members.getD j [])
      (st.sizes.getD i 0) (st.sizes.getD j 0))
    (fun k => st.active.getD k false)
    (pairsUpTo st.nodes.length) dblMax none

open Classical in
/-- The merge body of the while loop (lines 247-293): clamp the height to
`max_child_height + min_branch_length`, create the internal node, record
the merge, deactivate the two clusters and append the new one. -/
noncomputable def mergeStep (mbl : ℝ) (method : LinkageMethod) (st : ClusterState)
    (i j : Nat) (d : ℚ) : ClusterState :=
  let ni := st.nodes.getD i default
  let nj := st.nodes.getD j default
  let mh0 := distToHeight method d
  let maxChild := max ni.height nj.height
  let mh := if mh0 < maxChild + mbl then maxChild + mbl else mh0
  let newNode := createInternal st.nextId ni nj mh
  let mrec : MergeRecord :=
    { clusterI := i, clusterJ := j, distance := d,
      newClusterId := st.nextId, size := st.sizes.getD i 0 + st.sizes.getD j 0 }
  { nodes := st.nodes ++ [newNode]
    members := st.members ++ [st.members.getD i [] ++ st.members.getD j []]
    sizes := st.sizes ++ [st.sizes.getD i 0 + st.sizes.getD j 0]
    active := ((st.active.set i false).set j false) ++ [true]
    nextId := st.nextId + 1
    records := st.records ++ [mrec] }

/-- The while loop of `build_generic` (lines 216-294): run until at most
one cluster is active or no pair is found (the `min_i < 0` break).  The
C++ loop performs at most `active_count - 1` iterations since each merge
decreases the active count by one, so any fuel of at least that many
iterations computes the same state; `build_generic` passes `n`. -/
noncomputable def clusterLoop (method : LinkageMethod) (D : Nat → Nat → ℚ) (mbl : ℝ) :
    Nat → ClusterState → ClusterState
  | 0, st => st
  | fuel + 1, st =>
    if activeCount st ≤ 1 then st
    else
      match findMinPair method D st with
      | none => st
      | some (p, d) => clusterLoop method D mbl fuel (mergeStep mbl method st p.1 p.2 d)

/-- The root scan of `build_generic` (lines 296-303): the highest-index
active node. -/
def pickRoot (nodes : List TreeNode) (active : List Bool) : Option TreeNode :=
  ((nodes.zip active).reverse.find? (fun p => p.2)).map Prod.fst

/-- Embeds `build_generic` (lines 183-311). -/
noncomputable def buildGeneric (D : Nat → Nat → ℚ) (n : Nat) (readNames : List (List Char))
    (method : LinkageMethod) (mbl : ℝ) : Tree :=
  let st0 : ClusterState :=
    { nodes := (List.range n).map (fun i => createLeaf i (readNames.getD i []))
      members := (List.range n).map (fun i => [i])
      sizes := List.replicate n 1
      active := List.replicate n true
      nextId := n
      records := [] }
  let st := clusterLoop method D mbl n st0
  { root := pickRoot st.nodes st.active, mergeRecords := st.records }

/-- The distance-matrix input of `build_tree` (an `Eigen::MatrixXd`):
row/column counts and the entry function. -/
structure EMat where
  rows : Nat
  cols : Nat
  entry : Nat → Nat → ℚ

/-- Embeds `HierarchicalClustering::build_tree` (HierarchicalClustering.cpp lines
29-65): validate squareness and the label count, handle `n = 0` and
`n = 1`, then run the generic loop with the linkage strategies (the
`default:` throw of the switch is unreachable for the four-member
enum). -/
noncomputable def buildTree (M : EMat) (readNames : List (List Char))
    (cfg : ClusteringConfig) : Except String Tree :=
  let n := M.rows
  if n ≠ M.cols then .error "Distance matrix must be square"
  else if n ≠ readNames.length then .error "Number of names must match matrix dimension"
  else if n = 0 then .ok {}
  else if n = 1 then .ok { root := some (createLeaf 0 (readNames.getD 0 [])) }
  else .ok (buildGeneric M.entry n readNames cfg.method cfg.minBranchLength)

/-! ### Claim C10: input validation of `build_tree` -/

/-- C10: `build_tree` raises an error — and constructs no tree — exactly
when the matrix is not square or the label count differs from the matrix
dimension; on valid square input it returns a tree. -/
theorem c10_buildTree_validation (M : EMat) (names : List (List Char))
    (cfg : ClusteringConfig) :
    ((M.rows ≠ M.cols ∨ names.length ≠ M.rows) →
      ∃ msg, buildTree M names cfg = .error msg) ∧
    (M.rows = M.cols → names.length = M.rows →
      ∃ t, buildTree M names cfg = .ok t) := by
  constructor
  · intro h
    unfold buildTree
    by_cases h1 : M.rows ≠ M.cols
    · rw [if_pos h1]
      exact ⟨_, rfl⟩
    · push_neg at h1
      have h2 : M.rows ≠ names.length := by
        rcases h with h | h
        · exact absurd h1 h
        · omega
      rw [if_neg (by simp [h1]), if_pos h2]
      exact ⟨_, rfl⟩
  · intro h1 h2
    unfold buildTree
    rw [if_neg (by simp [h1]), if_neg (by omega)]
    by_cases h0 : M.rows = 0
    · rw [if_pos h0]
      exact ⟨_, rfl⟩
    · rw [if_neg h0]
      by_cases hone : M.rows = 1
      · rw [if_pos hone]
        exact ⟨_, rfl⟩
      · rw [if_neg hone]
        exact ⟨_, rfl⟩

/-- Witness: a valid 2×2 input builds a tree. -/
theorem c10_buildTree_validation_witness :
    ∃ t, buildTree ⟨2, 2, fun _ _ => 0⟩ [['a'], ['b']] {} = .ok t :=
  (c10_buildTree_validation ⟨2, 2, fun _ _ => 0⟩ [['a'], ['b']] {}).2 rfl rfl

/-! ### Claim C6: structural invariants of the clustering tree

The proof tracks a well-formedness invariant through the merge loop. -/

@[simp] theorem TreeNode.height_setBranchLen (t : TreeNode) (b : ℝ) :
    (t.setBranchLen b).height = t.height := by
  cases t <;> rfl

@[simp] theorem TreeNode.leafIndices_setBranchLen (t : TreeNode) (b : ℝ) :
    (t.setBranchLen b).leafIndices = t.leafIndices := by
  cases t <;> rfl

@[simp] theorem TreeNode.leafCount_setBranchLen (t : TreeNode) (b : ℝ) :
    (t.setBranchLen b).leafCount = t.leafCount := by
  cases t <;> rfl

@[simp] theorem TreeNode.internalCount_setBranchLen (t : TreeNode) (b : ℝ) :
    (t.setBranchLen b).internalCount = t.internalCount := by
  cases t <;> rfl

@[simp] theorem TreeNode.heightsMono_setBranchLen (t : TreeNode) (b : ℝ) :
    (t.setBranchLen b).heightsMono ↔ t.heightsMono := by
  cases t <;> simp [TreeNode.setBranchLen, TreeNode.heightsMono]

@[simp] theorem TreeNode.leavesOwnIndex_setBranchLen (t : TreeNode) (b : ℝ) :
    (t.setBranchLen b).leavesOwnIndex ↔ t.leavesOwnIndex := by
  cases t <;> simp [TreeNode.setBranchLen, TreeNode.leavesOwnIndex]

/-- Well-formedness of a cluster node: leaves carry their own index as
`leaf_indices`; internal nodes are built over well-formed children with a
height at least the child heights and the sorted concatenation as
`leaf_indices`. -/
def Wf : TreeNode → Prop
  | .leafN node_id _ _ _ li => li = [node_id]
  | .internalN _ h _ li l r =>
      Wf l ∧ Wf r ∧ l.height ≤ h ∧ r.height ≤ h ∧
        li = (l.leafIndices ++ r.leafIndices).mergeSort (fun a b => decide (a ≤ b))

@[simp] theorem Wf_setBranchLen (t : TreeNode) (b : ℝ) :
    Wf (t.setBranchLen b) ↔ Wf t := by
  cases t <;> simp [TreeNode.setBranchLen, Wf]

theorem Wf.heightsMono {t : TreeNode} (h : Wf t) : t.heightsMono := by
  induction t with
  | leafN => trivial
  | internalN id ht b li l r ihl ihr =>
    obtain ⟨hl, hr, hhl, hhr, _⟩ := h
    exact ⟨hhl, hhr, ihl hl, ihr hr⟩

theorem Wf.leavesOwnIndex {t : TreeNode} (h : Wf t) : t.leavesOwnIndex := by
  induction t with
  | leafN => exact h
  | internalN id ht b li l r ihl ihr =>
    obtain ⟨hl, hr, _, _, _⟩ := h
    exact ⟨ihl hl, ihr hr⟩

theorem Wf.sorted_leafIndices {t : TreeNode} (h : Wf t) :
    t.leafIndices.Sorted (· ≤ ·) := by
  cases t with
  | leafN id lab ht b li =>
    rw [show TreeNode.leafIndices (.leafN id lab ht b li) = li from rfl, h]
    simp
  | internalN id ht b li l r =>
    obtain ⟨_, _, _, _, hli⟩ := h
    rw [show TreeNode.leafIndices (.internalN id ht b li l r) = li from rfl, hli]
    exact List.sorted_mergeSort' _

theorem Wf.leafIndices_length {t : TreeNode} (h : Wf t) :
    t.leafIndices.length = t.leafCount := by
  induction t with
  | leafN id lab ht b li =>
    rw [show TreeNode.leafIndices (.leafN id lab ht b li) = li from rfl, h]
    rfl
  | internalN id ht b li l r ihl ihr =>
    obtain ⟨hl, hr, _, _, hli⟩ := h
    rw [show TreeNode.leafIndices (.internalN id ht b li l r) = li from rfl, hli]
    rw [(List.mergeSort_perm _ _).length_eq, List.length_append]
    rw [ihl hl, ihr hr]
    rfl

theorem Wf.internalCount_add_one {t : TreeNode} (h : Wf t) :
    t.internalCount + 1 = t.leafCount := by
  induction t with
  | leafN => rfl
  | internalN id ht b li l r ihl ihr =>
    obtain ⟨hl, hr, _, _, _⟩ := h
    have h1 := ihl hl
    have h2 := ihr hr
    show 1 + l.internalCount + r.internalCount + 1 = l.leafCount + r.leafCount
    omega

@[simp] theorem createInternal_height (node_id : Nat) (l r : TreeNode) (h : ℝ) :
    (createInternal node_id l r h).height = h := rfl

@[simp] theorem createInternal_leafIndices (node_id : Nat) (l r : TreeNode) (h : ℝ) :
    (createInternal node_id l r h).leafIndices =
      (l.leafIndices ++ r.leafIndices).mergeSort (fun a b => decide (a ≤ b)) := rfl

theorem createInternal_Wf {node_id : Nat} {l r : TreeNode} {h : ℝ}
    (hl : Wf l) (hr : Wf r) (hhl : l.height ≤ h) (hhr : r.height ≤ h) :
    Wf (createInternal node_id l r h) := by
  unfold createInternal
  refine ⟨(Wf_setBranchLen _ _).2 hl, (Wf_setBranchLen _ _).2 hr, ?_, ?_, ?_⟩ <;>
    simp [hhl, hhr]

theorem createInternal_leafIndices_perm {node_id : Nat} (l r : TreeNode) (h : ℝ) :
    List.Perm (createInternal node_id l r h).leafIndices
      (l.leafIndices ++ r.leafIndices) := by
  rw [createInternal_leafIndices]
  exact List.mergeSort_perm _ _

theorem mem_drop_range (n m j : Nat) : j ∈ (List.range n).drop m ↔ m ≤ j ∧ j < n := by
  constructor
  · intro h
    have h1 := List.mem_of_mem_drop h
    rw [List.mem_range] at h1
    refine ⟨?_, h1⟩
    rcases List.mem_iff_getElem.1 h with ⟨k, hk, hget⟩
    rw [List.getElem_drop] at hget
    rw [List.length_drop, List.length_range] at hk
    rw [← hget, List.getElem_range]
    omega
  · intro ⟨h1, h2⟩
    rcases Nat.le.dest h1 with ⟨k, rfl⟩
    apply List.mem_iff_getElem.2
    refine ⟨k, ?_, ?_⟩
    · rw [List.length_drop, List.length_range]; omega
    · rw [List.getElem_drop, List.getElem_range]

theorem pairsUpTo_mem {n : Nat} {p : Nat × Nat} :
    p ∈ pairsUpTo n ↔ p.1 < p.2 ∧ p.2 < n := by
  unfold pairsUpTo
  rw [List.mem_flatMap]
  constructor
  · rintro ⟨i, hi, hp⟩
    rw [List.mem_map] at hp
    rcases hp with ⟨j, hj, rfl⟩
    rw [mem_drop_range] at hj
    exact ⟨by omega, hj.2⟩
  · rintro ⟨h1, h2⟩
    refine ⟨p.1, List.mem_range.2 (by omega), ?_⟩
    rw [List.mem_map]
    exact ⟨p.2, (mem_drop_range n (p.1 + 1) p.2).2 ⟨by omega, h2⟩, rfl⟩

theorem getD_set_self {α : Type} (l : List α) (i : Nat) (a d : α) (h : i < l.length) :
    (l.set i a).getD i d = a := by
  rw [List.getD_eq_getElem?_getD, List.getElem?_set, if_pos rfl, if_pos h]
  rfl

theorem getD_set_ne {α : Type} (l : List α) (i k : Nat) (a d : α) (h : i ≠ k) :
    (l.set i a).getD k d = l.getD k d := by
  rw [List.getD_eq_getElem?_getD, List.getElem?_set, if_neg h,
    ← List.getD_eq_getElem?_getD]

theorem getD_append_self {α : Type} (l : List α) (x d : α) :
    (l ++ [x]).getD l.length d = x := by
  rw [List.getD_append_right _ _ _ _ le_rfl, Nat.sub_self]
  rfl

/-- Setting a `true` cell to `false` decreases the `true` count by one. -/
theorem count_true_set_false (l : List Bool) (i : Nat) (hi : i < l.length)
    (ht : l.getD i false = true) :
    (l.set i false).count true + 1 = l.count true := by
  have := List.count_set false true l i hi
  rw [this]
  have hgt : l[i] = true := by
    rw [List.getD_eq_getElem?_getD, List.getElem?_eq_getElem hi] at ht
    exact ht
  simp [hgt]
  have : 1 ≤ l.count true := by
    apply List.count_pos_iff.2
    exact hgt ▸ List.getElem_mem hi
  omega

/-- A list with at least two `true`s has two distinct `true` positions. -/
theorem exists_two_true (l : List Bool) (h : 2 ≤ l.count true) :
    ∃ i j, i < j ∧ j < l.length ∧ l.getD i false = true ∧ l.getD j false = true := by
  induction l with
  | nil => simp at h
  | cons a rest ih =>
    by_cases ha : a = true
    · subst ha
      have h1 : 1 ≤ rest.count true := by
        have hc : List.count true (true :: rest) = rest.count true + 1 := by
          simp [List.count_cons]
        rw [hc] at h
        omega
      rcases List.count_pos_iff.1 h1 with hmem
      rcases List.mem_iff_getElem.1 hmem with ⟨k, hk, hget⟩
      refine ⟨0, k + 1, by omega, by simp only [List.length_cons]; omega, rfl, ?_⟩
      rw [List.getD_cons_succ, List.getD_eq_getElem?_getD, List.getElem?_eq_getElem hk, hget]
      rfl
    · have ha' : a = false := by simpa using ha
      subst ha'
      have h1 : 2 ≤ rest.count true := by
        have hc : List.count true (false :: rest) = rest.count true := by
          simp [List.count_cons]
        rwa [hc] at h
      rcases ih h1 with ⟨i, j, hij, hj, hti, htj⟩
      exact ⟨i + 1, j + 1, by omega, by simp; omega,
        by rwa [List.getD_cons_succ], by rwa [List.getD_cons_succ]⟩

/-- A successful scan result was an active pair from the scanned list (or
the carried-in best). -/
theorem selectMinPair_mem (dist : Nat → Nat → ℚ) (act : Nat → Bool) :
    ∀ (pairs : List (Nat × Nat)) (bestD : ℚ) (best : Option ((Nat × Nat) × ℚ))
      (p : Nat × Nat) (d : ℚ),
      selectMinPair dist act pairs bestD best = some (p, d) →
      (p ∈ pairs ∧ act p.1 = true ∧ act p.2 = true) ∨ best = some (p, d) := by
  intro pairs
  induction pairs with
  | nil => intro bestD best p d h; exact Or.inr h
  | cons q rest ih =>
    intro bestD best p d h
    rw [selectMinPair] at h
    by_cases hact : act q.1 && act q.2
    · rw [if_pos hact] at h
      by_cases himp : dist q.1 q.2 < bestD
      · rw [if_pos himp] at h
        rcases ih _ _ _ _ h with h' | h'
        · exact Or.inl ⟨List.mem_cons_of_mem _ h'.1, h'.2⟩
        · have hqp : q = p := congrArg Prod.fst (Option.some.inj h')
          subst hqp
          have hb : act q.1 = true ∧ act q.2 = true := by simpa using hact
          exact Or.inl ⟨List.mem_cons_self _ _, hb.1, hb.2⟩
      · rw [if_neg himp] at h
        rcases ih _ _ _ _ h with h' | h'
        · exact Or.inl ⟨List.mem_cons_of_mem _ h'.1, h'.2⟩
        · exact Or.inr h'
    · rw [if_neg hact] at h
      rcases ih _ _ _ _ h with h' | h'
      · exact Or.inl ⟨List.mem_cons_of_mem _ h'.1, h'.2⟩
      · exact Or.inr h'

/-- The scan succeeds when it carries a hit already or some active pair
strictly beats the current threshold. -/
theorem selectMinPair_isSome (dist : Nat → Nat → ℚ) (act : Nat → Bool) :
    ∀ (pairs : List (Nat × Nat)) (bestD : ℚ) (best : Option ((Nat × Nat) × ℚ)),
      (best.isSome ∨ ∃ p ∈ pairs, act p.1 = true ∧ act p.2 = true ∧ dist p.1 p.2 < bestD) →
      (selectMinPair dist act pairs bestD best).isSome := by
  intro pairs
  induction pairs with
  | nil =>
    intro bestD best h
    rcases h with h | ⟨p, hp, _⟩
    · exact h
    · simp at hp
  | cons q rest ih =>
    intro bestD best h
    rw [selectMinPair]
    by_cases hact : act q.1 && act q.2
    · rw [if_pos hact]
      by_cases himp : dist q.1 q.2 < bestD
      · rw [if_pos himp]
        exact ih _ _ (Or.inl rfl)
      · rw [if_neg himp]
        apply ih
        rcases h with h | ⟨p, hp, h1, h2, h3⟩
        · exact Or.inl h
        · rcases List.mem_cons.1 hp with rfl | hp'
          · exact absurd h3 himp
          · exact Or.inr ⟨p, hp', h1, h2, h3⟩
    · rw [if_neg hact]
      apply ih
      rcases h with h | ⟨p, hp, h1, h2, h3⟩
      · exact Or.inl h
      · rcases List.mem_cons.1 hp with rfl | hp'
        · rw [h1, h2] at hact
          simp at hact
        · exact Or.inr ⟨p, hp', h1, h2, h3⟩

/-- The multiset of original indices covered by the active clusters. -/
def activeJoin (st : ClusterState) : Multiset Nat :=
  ∑ k in Finset.range st.active.length,
    if st.active.getD k false = true then (st.members.getD k [] : Multiset Nat) else 0

/-- The loop invariant of `build_generic`: parallel vectors agree in
length; every active node is well-formed, its `leaf_indices` is a
permutation of its member list, its recorded size is its member count and
its member list is nonempty; and the active member lists partition
`{0, …, n-1}`. -/
structure ClusterInv (n : Nat) (st : ClusterState) : Prop where
  len_members : st.members.length = st.nodes.length
  len_sizes : st.sizes.length = st.nodes.length
  len_active : st.active.length = st.nodes.length
  wf : ∀ k, k < st.nodes.length → st.active.getD k false = true →
    Wf (st.nodes.getD k default)
  li_perm : ∀ k, k < st.nodes.length → st.active.getD k false = true →
    List.Perm (st.nodes.getD k default).leafIndices (st.members.getD k [])
  sz : ∀ k, k < st.nodes.length → st.active.getD k false = true →
    st.sizes.getD k 0 = (st.members.getD k []).length
  mem_ne : ∀ k, k < st.nodes.length → st.active.getD k false = true →
    st.members.getD k [] ≠ []
  join : activeJoin st = ((List.range n : List Nat) : Multiset Nat)

theorem mergeStep_inv {n : Nat} {st : ClusterState} (inv : ClusterInv n st)
    (method : LinkageMethod) {mbl : ℝ} {i j : Nat} (d : ℚ)
    (hmbl : (0 : ℝ) ≤ mbl) (hij : i < j) (hjlen : j < st.nodes.length)
    (hai : st.active.getD i false = true) (haj : st.active.getD j false = true) :
    ClusterInv n (mergeStep mbl method st i j d) ∧
      activeCount (mergeStep mbl method st i j d) + 1 = activeCount st := by
  have hilen : i < st.nodes.length := lt_trans hij hjlen
  have hiA : i < st.active.length := inv.len_active ▸ hilen
  have hjA : j < st.active.length := inv.len_active ▸ hjlen
  have hne : i ≠ j := Nat.ne_of_lt hij
  -- the doubly-set active vector
  set X : List Bool := (st.active.set i false).set j false with hX
  have hXlen : X.length = st.active.length := by simp [hX]
  have hXN : X.length = st.nodes.length := hXlen.trans inv.len_active
  have hXget : ∀ k, X.getD k false =
      if k = j then false else if k = i then false else st.active.getD k false := by
    intro k
    by_cases hkj : k = j
    · subst hkj
      rw [hX, getD_set_self _ _ _ _ (by simpa using hjA), if_pos rfl]
    · rw [hX, getD_set_ne _ _ _ _ _ (Ne.symm hkj), if_neg hkj]
      by_cases hki : k = i
      · subst hki
        rw [getD_set_self _ _ _ _ hiA, if_pos rfl]
      · rw [getD_set_ne _ _ _ _ _ (Ne.symm hki), if_neg hki]
  -- field computations of the merged state, all indexed against
  -- `st.nodes.length`
  have hact' : ∀ k, k < st.nodes.length →
      (mergeStep mbl method st i j d).active.getD k false = X.getD k false := by
    intro k hk
    exact List.getD_append _ _ _ _ (hXN ▸ hk)
  have hactLen : (mergeStep mbl method st i j d).active.getD st.nodes.length false
      = true := by
    show (X ++ [true]).getD st.nodes.length false = true
    rw [← hXN]
    exact getD_append_self X true false
  have hmem' : ∀ k, k < st.nodes.length →
      (mergeStep mbl method st i j d).members.getD k [] = st.members.getD k [] := by
    intro k hk
    exact List.getD_append _ _ _ _ (inv.len_members ▸ hk)
  have hmemLen : (mergeStep mbl method st i j d).members.getD st.nodes.length []
      = st.members.getD i [] ++ st.members.getD j [] := by
    show (st.members ++ [_]).getD st.nodes.length [] = _
    rw [← inv.len_members]
    exact getD_append_self _ _ _
  have hnode' : ∀ k, k < st.nodes.length →
      (mergeStep mbl method st i j d).nodes.getD k default = st.nodes.getD k default := by
    intro k hk
    exact List.getD_append _ _ _ _ hk
  have hsz' : ∀ k, k < st.nodes.length →
      (mergeStep mbl method st i j d).sizes.getD k 0 = st.sizes.getD k 0 := by
    intro k hk
    exact List.getD_append _ _ _ _ (inv.len_sizes ▸ hk)
  have hszLen : (mergeStep mbl method st i j d).sizes.getD st.nodes.length 0
      = st.sizes.getD i 0 + st.sizes.getD j 0 := by
    show (st.sizes ++ [_]).getD st.nodes.length 0 = _
    rw [← inv.len_sizes]
    exact getD_append_self _ _ _
  have hnodeLen : (mergeStep mbl method st i j d).nodes.getD st.nodes.length default
      = createInternal st.nextId (st.nodes.getD i default) (st.nodes.getD j default)
          (let mh0 := distToHeight method d
           let maxChild := max (st.nodes.getD i default).height
             (st.nodes.getD j default).height
           if mh0 < maxChild + mbl then maxChild + mbl else mh0) :=
    getD_append_self _ _ _
  have hLm : (mergeStep mbl method st i j d).members.length = st.members.length + 1 := by
    show (st.members ++ [_]).length = _
    simp
  have hLs : (mergeStep mbl method st i j d).sizes.length = st.sizes.length + 1 := by
    show (st.sizes ++ [_]).length = _
    simp
  have hLa : (mergeStep mbl method st i j d).active.length = st.active.length + 1 := by
    show (X ++ [true]).length = _
    simp [hXlen]
  have hLn : (mergeStep mbl method st i j d).nodes.length = st.nodes.length + 1 := by
    show (st.nodes ++ [_]).length = _
    simp
  -- the clamped height dominates both child heights
  have hclamp : ∀ mh0 : ℝ,
      max (st.nodes.getD i default).height (st.nodes.getD j default).height ≤
        (if mh0 < max (st.nodes.getD i default).height
            (st.nodes.getD j default).height + mbl
         then max (st.nodes.getD i default).height
            (st.nodes.getD j default).height + mbl
         else mh0) := by
    intro mh0
    by_cases hc : mh0 < max (st.nodes.getD i default).height
        (st.nodes.getD j default).height + mbl
    · rw [if_pos hc]
      linarith
    · rw [if_neg hc]
      push_neg at hc
      linarith
  -- a helper splitting cases over k for the per-index facts
  have hsplit : ∀ k, k < st.nodes.length →
      (mergeStep mbl method st i j d).active.getD k false = true →
      (k ≠ i ∧ k ≠ j ∧ st.active.getD k false = true) := by
    intro k hk hk'
    rw [hact' k hk, hXget k] at hk'
    by_cases hkj : k = j
    · rw [if_pos hkj] at hk'
      exact absurd hk' (by simp)
    · rw [if_neg hkj] at hk'
      by_cases hki : k = i
      · rw [if_pos hki] at hk'
        exact absurd hk' (by simp)
      · rw [if_neg hki] at hk'
        exact ⟨hki, hkj, hk'⟩
  constructor
  · refine ⟨?_, ?_, ?_, ?_, ?_, ?_, ?_, ?_⟩
    · rw [hLm, hLn, inv.len_members]
    · rw [hLs, hLn, inv.len_sizes]
    · rw [hLa, hLn, inv.len_active]
    · -- wf
      intro k hk hk'
      rw [hLn] at hk
      rcases Nat.lt_succ_iff_lt_or_eq.1 hk with hklt | hkeq
      · obtain ⟨_, _, hk''⟩ := hsplit k hklt hk'
        rw [hnode' k hklt]
        exact inv.wf k hklt hk''
      · subst hkeq
        rw [hnodeLen]
        exact createInternal_Wf
          (inv.wf i hilen hai) (inv.wf j hjlen haj)
          (le_trans (le_max_left _ _) (hclamp _))
          (le_trans (le_max_right _ _) (hclamp _))
    · -- li_perm
      intro k hk hk'
      rw [hLn] at hk
      rcases Nat.lt_succ_iff_lt_or_eq.1 hk with hklt | hkeq
      · obtain ⟨_, _, hk''⟩ := hsplit k hklt hk'
        rw [hnode' k hklt, hmem' k hklt]
        exact inv.li_perm k hklt hk''
      · subst hkeq
        rw [hnodeLen, hmemLen]
        exact (createInternal_leafIndices_perm _ _ _).trans
          ((inv.li_perm i hilen hai).append (inv.li_perm j hjlen haj))
    · -- sizes
      intro k hk hk'
      rw [hLn] at hk
      rcases Nat.lt_succ_iff_lt_or_eq.1 hk with hklt | hkeq
      · obtain ⟨_, _, hk''⟩ := hsplit k hklt hk'
        rw [hsz' k hklt, hmem' k hklt]
        exact inv.sz k hklt hk''
      · subst hkeq
        rw [hszLen, hmemLen, List.length_append,
          inv.sz i hilen hai, inv.sz j hjlen haj]
    · -- nonempty members
      intro k hk hk'
      rw [hLn] at hk
      rcases Nat.lt_succ_iff_lt_or_eq.1 hk with hklt | hkeq
      · obtain ⟨_, _, hk''⟩ := hsplit k hklt hk'
        rw [hmem' k hklt]
        exact inv.mem_ne k hklt hk''
      · subst hkeq
        rw [hmemLen]
        intro hcon
        rcases List.append_eq_nil.1 hcon with ⟨h1, _⟩
        exact inv.mem_ne i hilen hai h1
    · -- join
      rw [← inv.join]
      unfold activeJoin
      rw [hLa, inv.len_active, Finset.sum_range_succ]
      have hterm : (if (mergeStep mbl method st i j d).active.getD st.nodes.length false
            = true
          then ((mergeStep mbl method st i j d).members.getD st.nodes.length [] :
            Multiset Nat) else 0)
          = ((st.members.getD i [] : Multiset Nat) +
              (st.members.getD j [] : Multiset Nat)) := by
        rw [hactLen, if_pos rfl, hmemLen]
        simp
      rw [hterm]
      have key : ∀ k ∈ Finset.range st.nodes.length,
          (if st.active.getD k false = true
            then (st.members.getD k [] : Multiset Nat) else 0)
          = (if (mergeStep mbl method st i j d).active.getD k false = true
              then ((mergeStep mbl method st i j d).members.getD k [] : Multiset Nat)
              else 0)
            + ((if k = i then (st.members.getD i [] : Multiset Nat) else 0)
             + (if k = j then (st.members.getD j [] : Multiset Nat) else 0)) := by
        intro k hk
        rw [Finset.mem_range] at hk
        rw [hact' k hk, hXget k, hmem' k hk]
        by_cases hkj : k = j
        · subst hkj
          rw [if_pos rfl, if_pos rfl, if_neg (Ne.symm hne), haj, if_pos rfl]
          simp
        · rw [if_neg hkj, if_neg hkj]
          by_cases hki : k = i
          · subst hki
            rw [if_pos rfl, if_pos rfl, hai, if_pos rfl]
            simp
          · rw [if_neg hki, if_neg hki]
            simp
      rw [Finset.sum_congr rfl key, Finset.sum_add_distrib, Finset.sum_add_distrib]
      rw [Finset.sum_ite_eq' (Finset.range st.nodes.length) i
        (fun _ => (st.members.getD i [] : Multiset Nat)),
        Finset.sum_ite_eq' (Finset.range st.nodes.length) j
        (fun _ => (st.members.getD j [] : Multiset Nat))]
      rw [if_pos (Finset.mem_range.2 hilen), if_pos (Finset.mem_range.2 hjlen)]
  · -- the active count drops by exactly one
    show (X ++ [true]).count true + 1 = st.active.count true
    rw [List.count_append]
    have hone : List.count true [true] = 1 := rfl
    have hc2 : X.count true + 1 = (st.active.set i false).count true := by
      apply count_true_set_false
      · simpa using hjA
      · rw [getD_set_ne _ _ _ _ _ hne]
        exact haj
    have hc1 : (st.active.set i false).count true + 1 = st.active.count true :=
      count_true_set_false st.active i hiA hai
    omega

theorem foldl_min_le_init (f : Nat → ℚ) :
    ∀ (l : List Nat) (m : ℚ), l.foldl (fun mm j => min mm (f j)) m ≤ m := by
  intro l
  induction l with
  | nil => intro m; exact le_rfl
  | cons a rest ih =>
    intro m
    exact le_trans (ih (min m (f a))) (min_le_left _ _)

theorem foldl_shrink {α : Type} (g : ℚ → α → ℚ) (hg : ∀ m i, g m i ≤ m) :
    ∀ (l : List α) (m : ℚ), l.foldl g m ≤ m := by
  intro l
  induction l with
  | nil => intro m; exact le_rfl
  | cons a rest ih =>
    intro m
    exact le_trans (ih (g m a)) (hg m a)

theorem foldl_max_le (f : Nat → ℚ) (c : ℚ) :
    ∀ (l : List Nat) (m : ℚ), m ≤ c → (∀ j ∈ l, f j ≤ c) →
      l.foldl (fun mm j => max mm (f j)) m ≤ c := by
  intro l
  induction l with
  | nil => intro m hm _; exact hm
  | cons a rest ih =>
    intro m hm hf
    refine ih _ (max_le hm (hf a (List.mem_cons_self _ _))) ?_
    intro j hj
    exact hf j (List.mem_cons_of_mem _ hj)

theorem double_sum_le (f : Nat → Nat → ℚ) (ca cb : List Nat)
    (hub : ∀ i ∈ ca, ∀ j ∈ cb, f i j ≤ 1) (hlb : ∀ i ∈ ca, ∀ j ∈ cb, 0 ≤ f i j) :
    (ca.map (fun i => (cb.map (fun j => f i j)).sum)).sum ≤
      ((ca.length * cb.length : ℕ) : ℚ) := by
  have hrow : ∀ i ∈ ca, (cb.map (fun j => f i j)).sum ≤ ((cb.length : ℕ) : ℚ) := by
    intro i hi
    calc (cb.map (fun j => f i j)).sum ≤ (cb.map (fun j => f i j)).length • (1 : ℚ) :=
          List.sum_le_card_nsmul _ 1 (by
            intro x hx
            rw [List.mem_map] at hx
            rcases hx with ⟨j, hj, rfl⟩
            exact hub i hi j hj)
      _ = ((cb.length : ℕ) : ℚ) := by simp
  calc (ca.map (fun i => (cb.map (fun j => f i j)).sum)).sum
      ≤ (ca.map (fun i => (cb.map (fun j => f i j)).sum)).length • ((cb.length : ℕ) : ℚ) :=
        List.sum_le_card_nsmul _ _ (by
          intro x hx
          rw [List.mem_map] at hx
          rcases hx with ⟨i, hi, rfl⟩
          exact hrow i hi)
    _ = ((ca.length * cb.length : ℕ) : ℚ) := by
        simp [nsmul_eq_mul]

theorem one_lt_dblMax : (1 : ℚ) < dblMax := by
  unfold dblMax
  norm_num

/-- Every linkage's cluster distance stays below `DBL_MAX` on nonempty
clusters over `{0,…,n-1}` with distance entries in `[0,1]` and `n` within
the `int` range. -/
theorem clusterDistance_lt_dblMax (method : LinkageMethod) {n : Nat}
    (hn : n ≤ 2 ^ 31) (D : Nat → Nat → ℚ)
    (hD : ∀ i j, i < n → j < n → 0 ≤ D i j ∧ D i j ≤ 1)
    {ma mb : List Nat} (hma : ma ≠ []) (hmb : mb ≠ [])
    (hsa : ∀ x ∈ ma, x < n) (hsb : ∀ x ∈ mb, x < n)
    (hla : ma.length ≤ n) (hlb : mb.length ≤ n)
    {sa sb : Nat} (hsza : sa = ma.length) (hszb : sb = mb.length) :
    clusterDistance method D ma mb sa sb < dblMax := by
  have hla1 : 1 ≤ ma.length := List.length_pos.2 hma
  have hlb1 : 1 ≤ mb.length := List.length_pos.2 hmb
  have habpos : (0 : ℚ) < ((ma.length * mb.length : ℕ) : ℚ) := by
    have : 1 ≤ ma.length * mb.length := Nat.mul_le_mul hla1 hlb1
    exact_mod_cast Nat.lt_of_lt_of_le Nat.zero_lt_one this
  cases method with
  | UPGMA =>
    show upgmaDist D ma mb < dblMax
    unfold upgmaDist
    have hsum := double_sum_le D ma mb
      (fun i hi j hj => (hD i j (hsa i hi) (hsb j hj)).2)
      (fun i hi j hj => (hD i j (hsa i hi) (hsb j hj)).1)
    have : (ma.map (fun i => (mb.map (fun j => D i j)).sum)).sum /
        ((ma.length * mb.length : ℕ) : ℚ) ≤ 1 :=
      (div_le_one habpos).2 hsum
    exact lt_of_le_of_lt this one_lt_dblMax
  | SINGLE =>
    show singleDist D ma mb < dblMax
    unfold singleDist
    rcases List.exists_cons_of_ne_nil hma with ⟨a, ca', rfl⟩
    rcases List.exists_cons_of_ne_nil hmb with ⟨b, cb', rfl⟩
    have hstep : ∀ (m : ℚ) (i : Nat),
        (b :: cb').foldl (fun mm j => min mm (D i j)) m ≤ m :=
      fun m i => foldl_min_le_init (D i) _ m
    have h1 : (ca').foldl (fun m i => (b :: cb').foldl (fun mm j => min mm (D i j)) m)
        ((b :: cb').foldl (fun mm j => min mm (D a j)) dblMax)
        ≤ (b :: cb').foldl (fun mm j => min mm (D a j)) dblMax :=
      foldl_shrink _ hstep _ _
    have h2 : (b :: cb').foldl (fun mm j => min mm (D a j)) dblMax ≤ D a b := by
      show (cb').foldl (fun mm j => min mm (D a j)) (min dblMax (D a b)) ≤ D a b
      exact le_trans (foldl_min_le_init (D a) cb' _) (min_le_right _ _)
    have hDab : D a b ≤ 1 :=
      (hD a b (hsa a (List.mem_cons_self _ _)) (hsb b (List.mem_cons_self _ _))).2
    calc (a :: ca').foldl (fun m i => (b :: cb').foldl (fun mm j => min mm (D i j)) m) dblMax
        ≤ D a b := le_trans h1 h2
      _ ≤ 1 := hDab
      _ < dblMax := one_lt_dblMax
  | COMPLETE =>
    show completeDist D ma mb < dblMax
    unfold completeDist
    have hstep : ∀ (m : ℚ) (i : Nat), i ∈ ma → m ≤ 1 →
        mb.foldl (fun mm j => max mm (D i j)) m ≤ 1 := by
      intro m i hi hm
      exact foldl_max_le (D i) 1 mb m hm (fun j hj => (hD i j (hsa i hi) (hsb j hj)).2)
    have : ∀ (l : List Nat), (∀ x ∈ l, x ∈ ma) → ∀ m : ℚ, m ≤ 1 →
        l.foldl (fun m i => mb.foldl (fun mm j => max mm (D i j)) m) m ≤ 1 := by
      intro l
      induction l with
      | nil => intro _ m hm; exact hm
      | cons a rest ih =>
        intro hsub m hm
        exact ih (fun x hx => hsub x (List.mem_cons_of_mem _ hx)) _
          (hstep m a (hsub a (List.mem_cons_self _ _)) hm)
    exact lt_of_le_of_lt (this ma (fun x hx => hx) 0 (by norm_num)) one_lt_dblMax
  | WARD =>
    show wardDist D ma mb sa sb < dblMax
    unfold wardDist
    have hsum := double_sum_le (fun i j => D i j * D i j) ma mb
      (fun i hi j hj => by
        have h := hD i j (hsa i hi) (hsb j hj)
        show D i j * D i j ≤ 1
        nlinarith [h.1, h.2])
      (fun i hi j hj => mul_self_nonneg _)
    have havgle : (ma.map (fun i => (mb.map (fun j => D i j * D i j)).sum)).sum /
        ((ma.length * mb.length : ℕ) : ℚ) ≤ 1 := (div_le_one habpos).2 hsum
    have havgnn : 0 ≤ (ma.map (fun i => (mb.map (fun j => D i j * D i j)).sum)).sum /
        ((ma.length * mb.length : ℕ) : ℚ) := by
      apply div_nonneg _ habpos.le
      apply List.sum_nonneg
      intro x hx
      rw [List.mem_map] at hx
      rcases hx with ⟨i, hi, rfl⟩
      apply List.sum_nonneg
      intro y hy
      rw [List.mem_map] at hy
      rcases hy with ⟨j, hj, rfl⟩
      exact mul_self_nonneg _
    have hwnn : (0 : ℚ) ≤ ((sa * sb : ℕ) : ℚ) / ((sa + sb : ℕ) : ℚ) := by
      apply div_nonneg <;> exact_mod_cast Nat.zero_le _
    have hwle : ((sa * sb : ℕ) : ℚ) / ((sa + sb : ℕ) : ℚ) ≤ ((sa * sb : ℕ) : ℚ) := by
      apply div_le_self (by exact_mod_cast Nat.zero_le _)
      have : 1 ≤ sa + sb := by
        subst hsza hszb
        omega
      exact_mod_cast this
    have hsab : ((sa * sb : ℕ) : ℚ) ≤ ((2 ^ 62 : ℕ) : ℚ) := by
      have : sa * sb ≤ 2 ^ 62 := by
        subst hsza hszb
        calc ma.length * mb.length ≤ n * n := Nat.mul_le_mul hla hlb
          _ ≤ 2 ^ 31 * 2 ^ 31 := Nat.mul_le_mul hn hn
          _ = 2 ^ 62 := by norm_num
      exact_mod_cast this
    have hbig : ((2 ^ 62 : ℕ) : ℚ) < dblMax := by
      unfold dblMax
      norm_num
    calc ((sa * sb : ℕ) : ℚ) / ((sa + sb : ℕ) : ℚ) *
          ((ma.map (fun i => (mb.map (fun j => D i j * D i j)).sum)).sum /
            ((ma.length * mb.length : ℕ) : ℚ))
        ≤ ((sa * sb : ℕ) : ℚ) / ((sa + sb : ℕ) : ℚ) * 1 := by
          exact mul_le_mul_of_nonneg_left havgle hwnn
      _ = ((sa * sb : ℕ) : ℚ) / ((sa + sb : ℕ) : ℚ) := mul_one _
      _ ≤ ((sa * sb : ℕ) : ℚ) := hwle
      _ ≤ ((2 ^ 62 : ℕ) : ℚ) := hsab
      _ < dblMax := hbig

/-- The member list of an active cluster is a sub-multiset of
`{0,…,n-1}`; in particular its elements and its length are bounded. -/
theorem inv_active_facts {n : Nat} {st : ClusterState} (inv : ClusterInv n st)
    {k : Nat} (hk : k < st.nodes.length) (hak : st.active.getD k false = true) :
    (∀ x ∈ st.members.getD k [], x < n) ∧ (st.members.getD k []).length ≤ n := by
  have hkA : k < st.active.length := inv.len_active ▸ hk
  have hle : ((st.members.getD k [] : Multiset Nat)) ≤ activeJoin st := by
    have := Finset.single_le_sum
      (f := fun k' => if st.active.getD k' false = true
        then (st.members.getD k' [] : Multiset Nat) else 0)
      (fun k' _ => Multiset.zero_le _) (Finset.mem_range.2 hkA)
    simp only at this
    rwa [if_pos hak] at this
  rw [inv.join] at hle
  constructor
  · intro x hx
    have : x ∈ ((List.range n : List Nat) : Multiset Nat) :=
      Multiset.mem_of_le hle (by exact_mod_cast hx)
    rw [Multiset.mem_coe, List.mem_range] at this
    exact this
  · have := Multiset.card_le_card hle
    simpa using this

theorem findMinPair_isSome {n : Nat} {st : ClusterState} (inv : ClusterInv n st)
    (method : LinkageMethod) (D : Nat → Nat → ℚ) (hn : n ≤ 2 ^ 31)
    (hD : ∀ i j, i < n → j < n → 0 ≤ D i j ∧ D i j ≤ 1)
    (h2 : 2 ≤ activeCount st) :
    (findMinPair method D st).isSome := by
  unfold findMinPair
  apply selectMinPair_isSome
  right
  obtain ⟨i, j, hij, hjA, hti, htj⟩ := exists_two_true st.active h2
  have hjlen : j < st.nodes.length := inv.len_active ▸ hjA
  have hilen : i < st.nodes.length := lt_trans hij hjlen
  refine ⟨(i, j), pairsUpTo_mem.2 ⟨hij, hjlen⟩, hti, htj, ?_⟩
  exact clusterDistance_lt_dblMax method hn D hD
    (inv.mem_ne i hilen hti) (inv.mem_ne j hjlen htj)
    (inv_active_facts inv hilen hti).1 (inv_active_facts inv hjlen htj).1
    (inv_active_facts inv hilen hti).2 (inv_active_facts inv hjlen htj).2
    (inv.sz i hilen hti) (inv.sz j hjlen htj)

theorem findMinPair_some_facts {st : ClusterState} (method : LinkageMethod)
    (D : Nat → Nat → ℚ) {p : Nat × Nat} {d : ℚ}
    (h : findMinPair method D st = some (p, d)) :
    p.1 < p.2 ∧ p.2 < st.nodes.length ∧
      st.active.getD p.1 false = true ∧ st.active.getD p.2 false = true := by
  rcases selectMinPair_mem _ _ _ _ _ _ _ h with ⟨hmem, h1, h2⟩ | hfalse
  · obtain ⟨hlt, hlen⟩ := pairsUpTo_mem.1 hmem
    exact ⟨hlt, hlen, h1, h2⟩
  · simp at hfalse

theorem clusterLoop_main (n : Nat) (method : LinkageMethod) (D : Nat → Nat → ℚ)
    (mbl : ℝ) (hmbl : (0 : ℝ) ≤ mbl) (hn : n ≤ 2 ^ 31)
    (hD : ∀ i j, i < n → j < n → 0 ≤ D i j ∧ D i j ≤ 1) :
    ∀ (fuel : Nat) (st : ClusterState), ClusterInv n st →
      1 ≤ activeCount st → activeCount st ≤ fuel + 1 →
      ClusterInv n (clusterLoop method D mbl fuel st) ∧
        activeCount (clusterLoop method D mbl fuel st) = 1 := by
  intro fuel
  induction fuel with
  | zero =>
    intro st inv h1 h2
    rw [clusterLoop]
    exact ⟨inv, by omega⟩
  | succ f ih =>
    intro st inv h1 h2
    rw [clusterLoop]
    by_cases hle : activeCount st ≤ 1
    · rw [if_pos hle]
      exact ⟨inv, by omega⟩
    · rw [if_neg hle]
      push_neg at hle
      have hsome := findMinPair_isSome inv method D hn hD hle
      obtain ⟨⟨p, d⟩, hfp⟩ := Option.isSome_iff_exists.1 hsome
      rw [hfp]
      obtain ⟨hij, hlen, ha1, ha2⟩ := findMinPair_some_facts method D hfp
      obtain ⟨inv', hcnt⟩ := mergeStep_inv inv method d hmbl hij hlen ha1 ha2
      exact ih _ inv' (by omega) (by omega)

theorem getD_map_range {α : Type} (f : Nat → α) (n k : Nat) (d : α) (hk : k < n) :
    ((List.range n).map f).getD k d = f k := by
  rw [List.getD_eq_getElem?_getD, List.getElem?_map, List.getElem?_range hk]
  rfl

theorem getD_replicate' {α : Type} (a d : α) (n k : Nat) (hk : k < n) :
    (List.replicate n a).getD k d = a := by
  rw [List.getD_eq_getElem?_getD, List.getElem?_replicate, if_pos hk]
  rfl

theorem sum_singleton_multisets (n : Nat) :
    (∑ k in Finset.range n, ({k} : Multiset Nat)) =
      ((List.range n : List Nat) : Multiset Nat) := by
  induction n with
  | zero => simp
  | succ m ih =>
    rw [Finset.sum_range_succ, ih, List.range_succ]
    show (↑(List.range m) + {m} : Multiset ℕ) = ↑(List.range m ++ [m])
    rfl

/-- The initial state of `build_generic` satisfies the invariant. -/
theorem init_inv (n : Nat) (names : List (List Char)) :
    ClusterInv n
      { nodes := (List.range n).map (fun i => createLeaf i (names.getD i []))
        members := (List.range n).map (fun i => [i])
        sizes := List.replicate n 1
        active := List.replicate n true
        nextId := n
        records := [] } := by
  have hlen : ((List.range n).map
      (fun i => createLeaf i (names.getD i []))).length = n := by simp
  refine ⟨by simp, by simp, by simp, ?_, ?_, ?_, ?_, ?_⟩
  · intro k hk _
    rw [hlen] at hk
    show Wf (((List.range n).map (fun i => createLeaf i (names.getD i []))).getD k default)
    rw [getD_map_range _ n k default hk]
    show ([k] : List Nat) = [k]
    rfl
  · intro k hk _
    rw [hlen] at hk
    show (((List.range n).map (fun i => createLeaf i (names.getD i []))).getD k
      default).leafIndices.Perm ((((List.range n).map (fun i => [i]))).getD k [])
    rw [getD_map_range _ n k default hk, getD_map_range _ n k [] hk]
    exact List.Perm.refl _
  · intro k hk _
    rw [hlen] at hk
    show (List.replicate n 1).getD k 0 = (((List.range n).map (fun i => [i])).getD k []).length
    rw [getD_replicate' 1 0 n k hk, getD_map_range _ n k [] hk]
    rfl
  · intro k hk _
    rw [hlen] at hk
    show ((List.range n).map (fun i => [i])).getD k [] ≠ []
    rw [getD_map_range _ n k [] hk]
    simp
  · show activeJoin _ = _
    unfold activeJoin
    simp only [List.length_replicate]
    rw [← sum_singleton_multisets n]
    apply Finset.sum_congr rfl
    intro k hk
    rw [Finset.mem_range] at hk
    rw [getD_replicate' true false n k hk, if_pos rfl, getD_map_range _ n k [] hk]
    rfl

/-- Running `pickRoot` on a state with exactly one active node returns that node. -/
theorem pickRoot_unique {nodes : List TreeNode} {active : List Bool}
    (hlen : active.length = nodes.length)
    (hcnt : active.count true = 1) :
    ∃ k, k < nodes.length ∧ active.getD k false = true ∧
      pickRoot nodes active = some (nodes.getD k default) := by
  -- the unique true position
  have h1 : 1 ≤ active.count true := by omega
  have hmem : true ∈ active := List.count_pos_iff.1 h1
  rcases List.mem_iff_getElem.1 hmem with ⟨k, hkA, hget⟩
  have hk : k < nodes.length := hlen ▸ hkA
  have hkD : active.getD k false = true := by
    rw [List.getD_eq_getElem?_getD, List.getElem?_eq_getElem hkA, hget]
    rfl
  refine ⟨k, hk, hkD, ?_⟩
  -- find? on the reversed zip succeeds
  unfold pickRoot
  have hzlen : (nodes.zip active).length = nodes.length := by
    rw [List.length_zip, hlen, Nat.min_self]
  have hmemz : (nodes.getD k default, true) ∈ (nodes.zip active).reverse := by
    rw [List.mem_reverse]
    apply List.mem_iff_getElem.2
    refine ⟨k, by omega, ?_⟩
    rw [List.getElem_zip]
    have hnd : nodes.getD k default = nodes[k] := by
      rw [List.getD_eq_getElem?_getD, List.getElem?_eq_getElem hk]
      rfl
    rw [hnd, hget]
  have hfind : ((nodes.zip active).reverse.find? (fun p => p.2)).isSome := by
    rw [List.find?_isSome]
    exact ⟨(nodes.getD k default, true), hmemz, rfl⟩
  obtain ⟨q, hq⟩ := Option.isSome_iff_exists.1 hfind
  have hqp : q.2 = true := by
    have := List.find?_some hq
    simpa using this
  have hqmem : q ∈ (nodes.zip active).reverse := List.mem_of_find?_eq_some hq
  rw [List.mem_reverse] at hqmem
  rcases List.mem_iff_getElem.1 hqmem with ⟨m, hm, hqeq⟩
  rw [hzlen] at hm
  have hmz : m < (nodes.zip active).length := by omega
  rw [List.getElem_zip] at hqeq
  -- the position `m` carries `true`; with a single `true` it must be `k`
  have hmA : m < active.length := hlen ▸ hm
  have hmtrue : active[m] = true := by
    have : q.2 = active[m] := by rw [← hqeq]
    rw [hqp] at this
    exact this.symm
  have hmk : m = k := by
    by_contra hne
    -- two distinct true positions contradict count 1
    have hset : (active.set m false).count true + 1 = active.count true := by
      apply count_true_set_false active m hmA
      rw [List.getD_eq_getElem?_getD, List.getElem?_eq_getElem hmA, hmtrue]
      rfl
    have hkD' : (active.set m false).getD k false = true := by
      rw [getD_set_ne _ _ _ _ _ hne]
      exact hkD
    have : 1 ≤ (active.set m false).count true := by
      apply List.count_pos_iff.2
      have hkset : k < (active.set m false).length := by
        rw [List.length_set]
        exact hkA
      have : (active.set m false)[k] = true := by
        rw [List.getD_eq_getElem?_getD, List.getElem?_eq_getElem hkset] at hkD'
        exact hkD'
      exact this ▸ List.getElem_mem hkset
    omega
  subst hmk
  rw [hq]
  show some q.1 = some (nodes.getD m default)
  congr 1
  have : q.1 = nodes[m] := by rw [← hqeq]
  rw [this, List.getD_eq_getElem?_getD, List.getElem?_eq_getElem hm]
  rfl

/-- With exactly one active cluster left, its member list covers
`{0,…,n-1}`. -/
theorem single_active_join {n : Nat} {st : ClusterState} (inv : ClusterInv n st)
    (hcnt : activeCount st = 1) {k : Nat} (hk : k < st.nodes.length)
    (hak : st.active.getD k false = true) :
    List.Perm (st.members.getD k []) (List.range n) := by
  have hother : ∀ k', k' < st.active.length → k' ≠ k →
      st.active.getD k' false = false := by
    intro k' hk' hne
    cases hcase : st.active.getD k' false
    · rfl
    · exfalso
      have hset : (st.active.set k' false).count true + 1 = st.active.count true :=
        count_true_set_false _ k' hk' hcase
    -- count 1 forces the set-to-false list to hold no `true`, but `k` still does
      have h0 : (st.active.set k' false).count true = 0 := by
        have : st.active.count true = 1 := hcnt
        omega
      have hkD' : (st.active.set k' false).getD k false = true := by
        rw [getD_set_ne _ _ _ _ _ hne]
        exact hak
      have hkset : k < (st.active.set k' false).length := by
        rw [List.length_set]
        exact inv.len_active ▸ hk
      have hval : (st.active.set k' false)[k] = true := by
        rw [List.getD_eq_getElem?_getD, List.getElem?_eq_getElem hkset] at hkD'
        exact hkD'
      have hmem : true ∈ st.active.set k' false := hval ▸ List.getElem_mem hkset
      have := List.count_pos_iff.2 hmem
      omega
  have hjoin := inv.join
  unfold activeJoin at hjoin
  rw [Finset.sum_eq_single_of_mem k (Finset.mem_range.2 (inv.len_active ▸ hk))] at hjoin
  · rw [if_pos hak] at hjoin
    exact Multiset.coe_eq_coe.1 hjoin
  · intro b hb hbk
    rw [Finset.mem_range] at hb
    rw [hother b hb hbk]
    simp

/-- For `n ≥ 1` the generic loop yields a well-formed root whose
`leaf_indices` is exactly `{0,…,n-1}`. -/
theorem buildGeneric_props (method : LinkageMethod) (D : Nat → Nat → ℚ) (mbl : ℝ)
    (n : Nat) (names : List (List Char)) (hmbl : (0 : ℝ) ≤ mbl) (hn1 : 1 ≤ n)
    (hn : n ≤ 2 ^ 31)
    (hD : ∀ i j, i < n → j < n → 0 ≤ D i j ∧ D i j ≤ 1) :
    ∃ root, (buildGeneric D n names method mbl).root = some root ∧ Wf root ∧
      root.leafIndices = List.range n := by
  have hinv0 := init_inv n names
  have hcnt0 : activeCount
      { nodes := (List.range n).map (fun i => createLeaf i (names.getD i []))
        members := (List.range n).map (fun i => [i])
        sizes := List.replicate n 1
        active := List.replicate n true
        nextId := n
        records := ([] : List MergeRecord) } = n := by
    show (List.replicate n true).count true = n
    simp
  obtain ⟨hinv, hcnt⟩ := clusterLoop_main n method D mbl hmbl hn hD n _ hinv0
    (by omega) (by omega)
  obtain ⟨k, hk, hak, hpick⟩ := pickRoot_unique hinv.len_active hcnt
  have hWf := hinv.wf k hk hak
  have hperm := (hinv.li_perm k hk hak).trans (single_active_join hinv hcnt hk hak)
  have hsortedRange : (List.range n).Sorted (· ≤ ·) :=
    (List.pairwise_lt_range n).imp le_of_lt
  have hli : (_ : TreeNode).leafIndices = List.range n :=
    List.eq_of_perm_of_sorted hperm hWf.sorted_leafIndices hsortedRange
  exact ⟨_, hpick, hWf, hli⟩

/-- C6: for every `N×N` distance matrix with `N ≥ 1` (entries in `[0,1]`,
`N` within the `int` range), matching labels and a non-negative
branch-length floor, `build_tree` returns a tree with exactly `N` leaves
and `N-1` internal nodes, heights non-decreasing along every root-ward
path, every leaf's `leaf_indices` equal to its own index, and the root's
`leaf_indices` equal to `{0,…,N-1}`. -/
theorem c6_tree_structural_invariants (M : EMat) (names : List (List Char))
    (cfg : ClusteringConfig) (hn1 : 1 ≤ M.rows) (hsq : M.rows = M.cols)
    (hnames : names.length = M.rows) (hn : M.rows ≤ 2 ^ 31)
    (hD : ∀ i j, i < M.rows → j < M.rows → 0 ≤ M.entry i j ∧ M.entry i j ≤ 1)
    (hmbl : (0 : ℝ) ≤ cfg.minBranchLength) :
    ∃ t root, buildTree M names cfg = .ok t ∧ t.root = some root ∧
      root.leafCount = M.rows ∧ root.internalCount = M.rows - 1 ∧
      root.heightsMono ∧ root.leavesOwnIndex ∧
      root.leafIndices = List.range M.rows := by
  unfold buildTree
  rw [if_neg (by simp [hsq]), if_neg (by omega), if_neg (by omega)]
  by_cases h1 : M.rows = 1
  · rw [if_pos h1]
    refine ⟨_, createLeaf 0 (names.getD 0 []), rfl, rfl, ?_, ?_, trivial, rfl, ?_⟩
    · rw [h1]
      rfl
    · rw [h1]
      rfl
    · rw [h1]
      rfl
  · rw [if_neg h1]
    obtain ⟨root, hroot, hWf, hli⟩ := buildGeneric_props cfg.method M.entry
      cfg.minBranchLength M.rows names hmbl hn1 hn hD
    refine ⟨_, root, rfl, hroot, ?_, ?_, hWf.heightsMono, hWf.leavesOwnIndex, hli⟩
    · have := hWf.leafIndices_length
      rw [hli, List.length_range] at this
      omega
    · have h2 := hWf.internalCount_add_one
      have := hWf.leafIndices_length
      rw [hli, List.length_range] at this
      omega

/-- Witness for `c6_tree_structural_invariants`: the 1×1 zero matrix with
one label and the default configuration. -/
theorem c6_tree_structural_invariants_witness :
    ∃ t root, buildTree ⟨1, 1, fun _ _ => 0⟩ [[]] {} = .ok t ∧ t.root = some root ∧
      root.leafCount = 1 ∧ root.internalCount = 1 - 1 ∧
      root.heightsMono ∧ root.leavesOwnIndex ∧
      root.leafIndices = List.range 1 :=
  c6_tree_structural_invariants ⟨1, 1, fun _ _ => 0⟩ [[]] {} le_rfl rfl rfl
    (by norm_num) (fun i j _ _ => ⟨le_rfl, by norm_num⟩) (by norm_num)

end InterSubMod
